import Mathlib

/-!
A shallow embedding of the SVCS version-control tool (`main.go`)

The program is a command-line tool working on the file system below the
current directory.  The development models

* Go strings and file contents as byte lists (`Bytes`),
* the parts of the Go standard library the program calls
  (`strings.TrimSpace`, `strings.Split`, `filepath.Clean/Join/Base`,
  `crypto/sha256`, `encoding/hex`, and the `os` file operations) as pure
  functions,
* the file system as a finite map from lexically resolved paths to nodes
  (regular file with its bytes, or directory), and
* every command handler of `main.go` as a function from a file system to a
  new file system together with the text printed on standard output.

Modelling assumptions about the operating system: paths are resolved
lexically, as `filepath.Clean` does (no symbolic links; `x/..` is the parent
of `x` whether or not `x` exists, and a trailing slash or a `.` after the name
of a regular file is ignored); every existing file is readable and
writable; the disk never fills up. A file operation fails exactly when the
shape of the file system forbids it: the source of a read is missing or is a
directory, the target of a write is a directory, or its parent is none.
-/

namespace VCS

/-! ## Bytes and literals -/

/-- A Go string or file content: a sequence of bytes. -/
abbrev Bytes := List UInt8

/-- The bytes of a text literal (UTF-8 encoding). -/
def str (s : String) : Bytes := s.data.flatMap String.utf8EncodeChar

/-! ## `crypto/sha256` and `encoding/hex` -/

namespace Sha256

/-- Words are natural numbers reduced modulo `2^32`. -/
def w32 (n : Nat) : Nat := n % 4294967296

/-- Rotate a 32-bit word right by `k` bits. -/
def rotr (x k : Nat) : Nat := w32 ((x >>> k) ||| (x <<< (32 - k)))

def ch (x y z : Nat) : Nat := (x &&& y) ^^^ ((4294967295 ^^^ x) &&& z)

def maj (x y z : Nat) : Nat := (x &&& y) ^^^ (x &&& z) ^^^ (y &&& z)

def bigSigma0 (x : Nat) : Nat := rotr x 2 ^^^ rotr x 13 ^^^ rotr x 22

def bigSigma1 (x : Nat) : Nat := rotr x 6 ^^^ rotr x 11 ^^^ rotr x 25

def smallSigma0 (x : Nat) : Nat := rotr x 7 ^^^ rotr x 18 ^^^ (x >>> 3)

def smallSigma1 (x : Nat) : Nat := rotr x 17 ^^^ rotr x 19 ^^^ (x >>> 10)

/-- The round constants of SHA-256 (in decimal). -/
def K : List Nat :=
  [1116352408, 1899447441, 3049323471, 3921009573, 961987163, 1508970993,
   2453635748, 2870763221, 3624381080, 310598401, 607225278, 1426881987,
   1925078388, 2162078206, 2614888103, 3248222580, 3835390401, 4022224774,
   264347078, 604807628, 770255983, 1249150122, 1555081692, 1996064986,
   2554220882, 2821834349, 2952996808, 3210313671, 3336571891, 3584528711,
   113926993, 338241895, 666307205, 773529912, 1294757372, 1396182291,
   1695183700, 1986661051, 2177026350, 2456956037, 2730485921, 2820302411,
   3259730800, 3345764771, 3516065817, 3600352804, 4094571909, 275423344,
   430227734, 506948616, 659060556, 883997877, 958139571, 1322822218,
   1537002063, 1747873779, 1955562222, 2024104815, 2227730452, 2361852424,
   2428436474, 2756734187, 3204031479, 3329325298]

/-- The eight working variables. -/
structure Vars where
  a : Nat
  b : Nat
  c : Nat
  d : Nat
  e : Nat
  f : Nat
  g : Nat
  h : Nat

/-- The initial hash value of SHA-256 (in decimal). -/
def H0 : Vars :=
  ⟨1779033703, 3144134277, 1013904242, 2773480762,
   1359893119, 2600822924, 528734635, 1541459225⟩

/-- Big-endian bytes of `n`, `k` of them. -/
def beBytes : Nat → Nat → List Nat
  | 0, _ => []
  | k + 1, n => beBytes k (n / 256) ++ [n % 256]

/-- The padded message: the data, a `0x80` byte, zeros up to 56 modulo 64, and
the bit length as a 64-bit big-endian number. -/
def pad (msg : List Nat) : List Nat :=
  msg ++ 128 :: List.replicate ((119 - msg.length % 64) % 64) 0 ++ beBytes 8 (8 * msg.length % 18446744073709551616)

/-- Group bytes into big-endian 32-bit words. -/
def toWords : List Nat → List Nat
  | a :: b :: c :: d :: rest => (a * 16777216 + b * 65536 + c * 256 + d) :: toWords rest
  | _ => []

/-- Cut a word list into blocks of 16 words. -/
def toBlocks : Nat → List Nat → List (List Nat)
  | 0, _ => []
  | n + 1, ws => ws.take 16 :: toBlocks n (ws.drop 16)

/-- Extend the message schedule by `n` words; `rev` holds the schedule so far,
newest word first. -/
def extend : Nat → List Nat → List Nat
  | 0, rev => rev
  | n + 1, rev =>
    extend n (w32 (smallSigma1 (rev.getD 1 0) + rev.getD 6 0 + smallSigma0 (rev.getD 14 0) + rev.getD 15 0) :: rev)

/-- The 64-word message schedule of a block. -/
def schedule (block : List Nat) : List Nat := (extend 48 block.reverse).reverse

/-- One round of the compression function. -/
def round (v : Vars) (kw : Nat × Nat) : Vars :=
  let t1 := v.h + bigSigma1 v.e + ch v.e v.f v.g + kw.1 + kw.2
  let t2 := bigSigma0 v.a + maj v.a v.b v.c
  ⟨w32 (t1 + t2), v.a, v.b, v.c, w32 (v.d + t1), v.e, v.f, v.g⟩

/-- Compress one block into the chaining value. -/
def compress (s : Vars) (block : List Nat) : Vars :=
  let v := (K.zip (schedule block)).foldl round s
  ⟨w32 (s.a + v.a), w32 (s.b + v.b), w32 (s.c + v.c), w32 (s.d + v.d),
   w32 (s.e + v.e), w32 (s.f + v.f), w32 (s.g + v.g), w32 (s.h + v.h)⟩

/-- The digest as eight 32-bit words. -/
def digestWords (msg : List Nat) : List Nat :=
  let p := pad msg
  let v := (toBlocks (p.length / 64) (toWords p)).foldl compress H0
  [v.a, v.b, v.c, v.d, v.e, v.f, v.g, v.h]

end Sha256

/-- The value of `sha256` over `data` (`hasher.Sum(nil)` after writing `data`): 32 bytes. -/
def sha256 (data : Bytes) : Bytes :=
  ((Sha256.digestWords (data.map UInt8.toNat)).flatMap (Sha256.beBytes 4)).map Nat.toUInt8

/-- One lowercase hexadecimal digit. -/
def hexDigit (n : Nat) : UInt8 := (str "0123456789abcdef").getD n 48

/-- The function `hex.EncodeToString`: two lowercase digits per byte. -/
def hexEncode (data : Bytes) : Bytes :=
  data.flatMap fun b => [hexDigit (b.toNat / 16), hexDigit (b.toNat % 16)]


/-! ## `strings` -/

/-- The UTF-8 encodings of the runes for which `unicode.IsSpace` holds. -/
def spaceRunes : List Bytes :=
  [[0x09], [0x0a], [0x0b], [0x0c], [0x0d], [0x20], [0xc2, 0x85], [0xc2, 0xa0], [0xe1, 0x9a, 0x80],
   [0xe2, 0x80, 0x80], [0xe2, 0x80, 0x81], [0xe2, 0x80, 0x82], [0xe2, 0x80, 0x83], [0xe2, 0x80, 0x84],
   [0xe2, 0x80, 0x85], [0xe2, 0x80, 0x86], [0xe2, 0x80, 0x87], [0xe2, 0x80, 0x88], [0xe2, 0x80, 0x89],
   [0xe2, 0x80, 0x8a], [0xe2, 0x80, 0xa8], [0xe2, 0x80, 0xa9], [0xe2, 0x80, 0xaf], [0xe2, 0x81, 0x9f],
   [0xe3, 0x80, 0x80]]

/-- Strip leading occurrences of the byte sequences `rs`; `skip` counts the
bytes of an already recognised sequence that are still to be dropped. -/
def trimLeftAux (rs : List Bytes) : Nat → Bytes → Bytes
  | _, [] => []
  | k + 1, _ :: cs => trimLeftAux rs k cs
  | 0, c :: cs =>
    match rs.find? fun r => r.isPrefixOf (c :: cs) with
    | some r => trimLeftAux rs (r.length - 1) cs
    | none => c :: cs

/-- The function `strings.TrimSpace`: remove leading and trailing white space. -/
def TrimSpace (s : Bytes) : Bytes :=
  (trimLeftAux (spaceRunes.map List.reverse) 0 (trimLeftAux spaceRunes 0 s).reverse).reverse

/-- Put a byte in front of the first piece. -/
def consHead (c : UInt8) : List Bytes → List Bytes
  | [] => [[c]]
  | h :: t => (c :: h) :: t

/-- Cut `s` at the successive non-overlapping occurrences of `sep`, from the
left; `skip` counts the bytes of a recognised separator still to be dropped. -/
def splitAux (sep : Bytes) : Nat → Bytes → List Bytes
  | _, [] => [[]]
  | k + 1, _ :: cs => splitAux sep k cs
  | 0, c :: cs =>
    if sep.isPrefixOf (c :: cs) then [] :: splitAux sep (sep.length - 1) cs
    else consHead c (splitAux sep 0 cs)

/-- The function `strings.Split` for a non-empty separator (both call sites
of the program pass one). -/
def Split (s sep : Bytes) : List Bytes := splitAux sep 0 s

/-! ## `path/filepath` (Unix) -/

/-- A resolved path: the list of its components. A rooted path starts with
the component `/`; a path that leaves the current directory starts with `..`
components. -/
abbrev Path := List Bytes

/-- One step of `filepath.Clean` over the stack of components kept so far
(last component first). -/
def cleanStep (rooted : Bool) (st : List Bytes) (c : Bytes) : List Bytes :=
  if c = [] ∨ c = str "." then st
  else if c = str ".." then
    match st with
    | [] => if rooted then [] else [c]
    | t :: r => if t = str ".." then c :: t :: r else r
  else c :: st

/-- The components that `filepath.Clean` keeps. -/
def cleanComps (p : Bytes) : List Bytes :=
  ((Split p [47]).foldl (cleanStep (p.head? = some 47)) []).reverse

/-- The function `filepath.Clean`. -/
def Clean (p : Bytes) : Bytes :=
  if p.head? = some 47 then 47 :: List.intercalate [47] (cleanComps p)
  else if cleanComps p = [] then str "." else List.intercalate [47] (cleanComps p)

/-- The function `filepath.Join` for two elements. -/
def Join (a b : Bytes) : Bytes :=
  if a ≠ [] then Clean (a ++ 47 :: b) else if b ≠ [] then Clean b else []

/-- The function `filepath.Base`. -/
def Base (path : Bytes) : Bytes :=
  if path = [] then str "."
  else
    let p := (path.reverse.dropWhile fun c => c = 47).reverse
    let b := (p.reverse.takeWhile fun c => c ≠ 47).reverse
    if b = [] then str "/" else b

/-- Lexical resolution of a path string relative to the current directory. -/
def resolve (p : Bytes) : Path :=
  if p.head? = some 47 then str "/" :: cleanComps p else cleanComps p

/-! ## The file system and the `os` operations -/

/-- A node of the file system. -/
inductive Node where
  | file (data : Bytes)
  | dir
  deriving DecidableEq

/-- The file system: an association list from resolved paths to nodes; the
first entry for a path is the current one. -/
abbrev FS := List (Path × Node)

/-- The node at a resolved path. The current directory, its ancestors and the
root always are directories. -/
def FS.get (fs : FS) (k : Path) : Option Node :=
  if (k.all fun c => c = str "..") ∨ k = [str "/"] then some Node.dir else fs.lookup k

/-- Write a node at a resolved path. -/
def FS.set (fs : FS) (k : Path) (n : Node) : FS := (k, n) :: fs

/-- The node a path string names; the empty path names nothing. -/
def FS.node (fs : FS) (p : Bytes) : Option Node :=
  if p = [] then none else fs.get (resolve p)

def Node.isFile : Option Node → Bool
  | some (Node.file _) => true
  | _ => false

/-- The error of a path lookup that finds no node, met as the kernel meets
it, component by component from the directory `cur`: `true` when it is
`ENOENT`. A component looked up in a regular file gives `ENOTDIR`, a
component of more than 255 bytes gives `ENAMETOOLONG`, and only a missing
component of a directory gives `ENOENT`. -/
def lookupNotExist (fs : FS) : Path → List Bytes → Bool
  | _, [] => false
  | cur, c :: cs =>
    if Node.isFile (fs.get cur) then false
    else if 255 < c.length then false
    else if fs.get (cur ++ [c]) = none then true
    else lookupNotExist fs (cur ++ [c]) cs

/-- Whether `os.IsNotExist` holds of the error of `os.Stat(p)`. The empty path
gives `ENOENT`. Otherwise the path has less than 4096 bytes (else
`ENAMETOOLONG`) and no zero byte (else `EINVAL`), nothing is at `p`, and the
lookup of its components ends in `ENOENT`. -/
def statNotExist (fs : FS) (p : Bytes) : Bool :=
  p = [] ∨ (p.length < 4096 ∧ 0 ∉ p ∧ fs.get (resolve p) = none ∧ lookupNotExist fs [] (resolve p))

/-- The function `ioutil.ReadFile`. -/
def ReadFile (fs : FS) (p : Bytes) : Option Bytes :=
  match fs.node p with
  | some (Node.file d) => some d
  | _ => none

/-- Whether a file can be opened for writing at `p`, creating it when absent:
`p` is no directory and its parent is one. -/
def canCreate (fs : FS) (p : Bytes) : Bool :=
  p ≠ [] ∧ fs.get (resolve p) ≠ some Node.dir ∧ fs.get (resolve p).dropLast = some Node.dir

/-- The function `ioutil.WriteFile`: create or truncate, then write. -/
def WriteFile (fs : FS) (p data : Bytes) : Option FS :=
  if canCreate fs p then some (fs.set (resolve p) (Node.file data)) else none

/-- Opening with `O_CREATE|O_RDWR` and closing: creates an empty file when
nothing is there. -/
def touch (fs : FS) (p : Bytes) : Option FS :=
  if canCreate fs p then
    match fs.get (resolve p) with
    | none => some (fs.set (resolve p) (Node.file []))
    | some _ => some fs
  else none

/-- The function `os.MkdirAll`: fails when a prefix of the path is a regular
file, and otherwise creates the missing directories. -/
def MkdirAll (fs : FS) (p : Bytes) : Option FS :=
  if p = [] ∨ (resolve p).inits.any (fun q => Node.isFile (fs.get q)) then none
  else some ((resolve p).inits.foldl (fun s q => if s.get q = none then s.set q Node.dir else s) fs)

/-- A name a directory entry can have. -/
def validName (n : Bytes) : Bool :=
  n ≠ [] ∧ 47 ∉ n ∧ n ≠ str "." ∧ n ≠ str ".."

/-- Byte-wise lexicographic order of strings. -/
def bytesLt : Bytes → Bytes → Bool
  | [], [] => false
  | [], _ :: _ => true
  | _ :: _, [] => false
  | a :: as, b :: bs => a < b ∨ (a = b ∧ bytesLt as bs)

/-- Insert a name into a sorted list without repetition. -/
def insertName (n : Bytes) : List Bytes → List Bytes
  | [] => [n]
  | m :: ms => if n = m then m :: ms else if bytesLt n m then n :: m :: ms else m :: insertName n ms

/-- The names of the entries of the directory at `k`, sorted by name. -/
def childNames (fs : FS) (k : Path) : List Bytes :=
  (fs.filterMap fun e =>
    match e.1.getLast? with
    | some n => if e.1.dropLast = k ∧ validName n then some n else none
    | none => none).foldr insertName []

/-- The function `os.ReadDir`: the entries of a directory sorted by name, each
with its `IsDir` flag. -/
def ReadDir (fs : FS) (p : Bytes) : Option (List (Bytes × Bool)) :=
  match fs.node p with
  | some Node.dir =>
    some ((childNames fs (resolve p)).map fun n => (n, fs.get (resolve p ++ [n]) = some Node.dir))
  | _ => none

/-- The bytes `filepath.Walk` feeds to the callback of `calculateCommitHash`:
those of every regular file below `k`, directories visited in name order.
The fuel bounds the depth of the walk. -/
def walkFiles (fs : FS) : Nat → Path → Option Bytes
  | 0, _ => none
  | n + 1, k =>
    match fs.get k with
    | none => none
    | some (Node.file d) => some d
    | some Node.dir =>
      (childNames fs k).foldl
        (fun acc name => acc.bind fun a => (walkFiles fs n (k ++ [name])).map fun d => a ++ d) (some [])

/-- The entries strictly below a path. Each step down of a walk leaves fewer
of them, so their number bounds the depth of the walk. -/
def below (fs : FS) (k : Path) : FS :=
  fs.filter fun e => decide (k <+: e.1 ∧ e.1 ≠ k)

/-! ## The program -/

def vcsDir : Bytes := str "./vcs"
def commitsDir : Bytes := str "./vcs/commits"
def configFile : Bytes := str "./vcs/config.txt"
def indexFile : Bytes := str "./vcs/index.txt"
def logFile : Bytes := str "./vcs/log.txt"

/-- The function `printHelp`. -/
def printHelp : Bytes :=
  str "These are SVCS commands:\n" ++ str "config     Get and set a username.\n"
    ++ str "add        Add a file to the index.\n" ++ str "log        Show commit logs.\n"
    ++ str "commit     Save changes.\n" ++ str "checkout   Restore a file.\n"

/-- The function `handleConfig`. -/
def handleConfig (args : List Bytes) (fs : FS) : FS × Bytes :=
  match args with
  | [] =>
    match ReadFile fs configFile with
    | some content =>
      if content.length > 0 then (fs, str "The username is " ++ content ++ str ".\n")
      else (fs, str "Please, tell me who you are.\n")
    | none => (fs, str "Please, tell me who you are.\n")
  | username :: _ =>
    match WriteFile fs configFile username with
    | none => (fs, str "Error: Could not save username.\n")
    | some fs1 => (fs1, str "The username is " ++ username ++ str ".\n")

/-- The function `appendToFile`: open with `O_APPEND|O_CREATE|O_RDWR` and write. -/
def appendToFile (fs : FS) (filePath content : Bytes) : Option FS :=
  if canCreate fs filePath then
    some (fs.set (resolve filePath) (Node.file ((ReadFile fs filePath).getD [] ++ content)))
  else none

/-- The function `handleAdd`. -/
def handleAdd (args : List Bytes) (fs : FS) : FS × Bytes :=
  match args with
  | [] =>
    match ReadFile fs indexFile with
    | some content =>
      if content.length > 0 then (fs, str "Tracked files:\n" ++ content)
      else (fs, str "Add a file to the index.\n")
    | none => (fs, str "Add a file to the index.\n")
  | fileName :: _ =>
    if statNotExist fs fileName then (fs, str "Can't find '" ++ fileName ++ str "'.\n")
    else
      match appendToFile fs indexFile (fileName ++ str "\n") with
      | none => (fs, str "Error: Could not open index file.\n")
      | some fs1 => (fs1, str "The file '" ++ fileName ++ str "' is tracked.\n")

/-- The function `getTrackedFiles`. -/
def getTrackedFiles (fs : FS) : Option (List Bytes) :=
  match ReadFile fs indexFile with
  | none => none
  | some content => some (Split (TrimSpace content) (str "\n"))

/-- The loop of `calculateFilesHash`: the bytes written to the hasher. -/
def readAll (fs : FS) : List Bytes → Option Bytes
  | [] => some []
  | file :: rest =>
    match ReadFile fs file with
    | none => none
    | some data => (readAll fs rest).map fun d => data ++ d

/-- The function `calculateFilesHash`. -/
def calculateFilesHash (fs : FS) : Option Bytes :=
  match getTrackedFiles fs with
  | none => none
  | some files => (readAll fs files).map fun d => hexEncode (sha256 d)

/-- The function `calculateCommitHash`. -/
def calculateCommitHash (fs : FS) (dirPath : Bytes) : Option Bytes :=
  if dirPath = [] then none
  else (walkFiles fs (fs.length + 1) (resolve dirPath)).map fun d => hexEncode (sha256 d)

/-- The function `getLastCommitHash`. -/
def getLastCommitHash (fs : FS) : Option Bytes :=
  match ReadDir fs commitsDir with
  | none => none
  | some entries =>
    if entries.length = 0 then none
    else
      some (entries.foldl (fun lastCommitHash entry =>
        if entry.2 then
          match calculateCommitHash fs (Join commitsDir entry.1) with
          | some hash => hash
          | none => lastCommitHash
        else lastCommitHash) [])

/-- The function `copyFile`: open the source, create or truncate the
destination, copy. A failed copy leaves the truncated destination behind. -/
def copyFile (fs : FS) (src dst : Bytes) : FS × Bool :=
  match fs.node src with
  | none => (fs, false)
  | some _ =>
    if canCreate fs dst then
      let fs1 := fs.set (resolve dst) (Node.file [])
      match fs1.node src with
      | some (Node.file d) => (fs1.set (resolve dst) (Node.file d), true)
      | _ => (fs1, false)
    else (fs, false)

/-- The copy loop of `handleCommit`; the result names the file whose copy
failed, if any. -/
def commitFiles (commitPath : Bytes) : List Bytes → FS → FS × Option Bytes
  | [], fs => (fs, none)
  | file :: rest, fs =>
    match copyFile fs file (Join commitPath (Base file)) with
    | (fs1, true) => commitFiles commitPath rest fs1
    | (fs1, false) => (fs1, some file)

/-- The function `handleCommit`. -/
def handleCommit (args : List Bytes) (fs : FS) : FS × Bytes :=
  match args with
  | [] => (fs, str "Message was not passed.\n")
  | message :: _ =>
    match ReadFile fs configFile with
    | none => (fs, str "Error: Could not read username from config.txt.\n")
    | some author =>
      if author.length = 0 then (fs, str "Error: Could not read username from config.txt.\n")
      else
        match calculateFilesHash fs with
        | none => (fs, str "Error: Could not calculate hash.\n")
        | some newHash =>
          if getLastCommitHash fs = some newHash then (fs, str "Nothing to commit.\n")
          else
            let commitID := newHash.take 6
            let commitPath := Join commitsDir commitID
            match MkdirAll fs commitPath with
            | none => (fs, str "Error: Could not create commit directory.\n")
            | some fs1 =>
              match getTrackedFiles fs1 with
              | none => (fs1, str "Error: Could not read tracked files.\n")
              | some files =>
                match commitFiles commitPath files fs1 with
                | (fs2, some file) => (fs2, str "Error: Could not copy '" ++ file ++ str "'.\n")
                | (fs2, none) =>
                  let logEntry := str "commit " ++ commitID ++ str "\nAuthor: " ++ author ++ str "\n" ++ message
                  match appendToFile fs2 logFile (logEntry ++ str "\n\n") with
                  | none => (fs2, str "Error: Could not write to log file.\n")
                  | some fs3 => (fs3, str "Changes are committed.\n")

/-- The function `handleLog`. -/
def handleLog (fs : FS) : FS × Bytes :=
  if statNotExist fs logFile then (fs, str "No commits yet.\n")
  else
    match ReadFile fs logFile with
    | none => (fs, str "No commits yet.\n")
    | some content =>
      if content.length = 0 then (fs, str "No commits yet.\n")
      else (fs, (str "\n\n").intercalate (Split (TrimSpace content) (str "\n\n")).reverse)

/-- The restore loop of `handleCheckout`; the result names the entry whose
copy failed, if any. -/
def restoreFiles (commitPath : Bytes) : List (Bytes × Bool) → FS → FS × Option Bytes
  | [], fs => (fs, none)
  | file :: rest, fs =>
    match copyFile fs (Join commitPath file.1) file.1 with
    | (fs1, true) => restoreFiles commitPath rest fs1
    | (fs1, false) => (fs1, some file.1)

/-- The function `handleCheckout`. -/
def handleCheckout (args : List Bytes) (fs : FS) : FS × Bytes :=
  match args with
  | [] => (fs, str "Commit id was not passed.\n")
  | commitID :: _ =>
    let commitPath := Join commitsDir commitID
    if statNotExist fs commitPath then (fs, str "Commit does not exist.\n")
    else
      match ReadDir fs commitPath with
      | none => (fs, str "Error: Could not read commit directory.\n")
      | some files =>
        match restoreFiles commitPath files fs with
        | (fs1, some dst) => (fs1, str "Error: Could not restore '" ++ dst ++ str "'.\n")
        | (fs1, none) => (fs1, str "Switched to commit " ++ commitID ++ str ".\n")

/-- The loop of `ensureVcsDir` over the three store files. -/
def ensureFiles : List Bytes → FS → FS × Bytes
  | [], fs => (fs, [])
  | file :: rest, fs =>
    match touch fs file with
    | none =>
      let r := ensureFiles rest fs
      (r.1, str "Error: Could not create " ++ file ++ str " file.\n" ++ r.2)
    | some fs1 => ensureFiles rest fs1

/-- The function `ensureVcsDir`. -/
def ensureVcsDir (fs : FS) : FS × Bytes :=
  match MkdirAll fs commitsDir with
  | none => (fs, str "Error: Could not create vcs directory structure.\n")
  | some fs1 => ensureFiles [configFile, indexFile, logFile] fs1

/-- The function `main`; `args` is `os.Args[1:]`. -/
def main (args : List Bytes) (fs : FS) : FS × Bytes :=
  let r := ensureVcsDir fs
  let run (h : FS → FS × Bytes) : FS × Bytes := ((h r.1).1, r.2 ++ (h r.1).2)
  match args with
  | [] => (r.1, r.2 ++ printHelp)
  | cmd :: rest =>
    if cmd = str "--help" then (r.1, r.2 ++ printHelp)
    else if cmd = str "config" then run (handleConfig rest)
    else if cmd = str "add" then run (handleAdd rest)
    else if cmd = str "commit" then run (handleCommit rest)
    else if cmd = str "log" then run (handleLog)
    else if cmd = str "checkout" then run (handleCheckout rest)
    else (r.1, r.2 ++ str "'" ++ cmd ++ str "' is not a SVCS command.\n")


/-! ## Example states -/

/-- An initialised store with author `bob`, tracking `a` and `b` in that
order, and no commit yet. -/
def exampleFS : FS :=
  [([str "vcs"], Node.dir), ([str "vcs", str "commits"], Node.dir),
   ([str "vcs", str "config.txt"], Node.file (str "bob")),
   ([str "vcs", str "index.txt"], Node.file (str "a\nb\n")),
   ([str "vcs", str "log.txt"], Node.file []),
   ([str "a"], Node.file (str "hello")), ([str "b"], Node.file (str "world"))]

/-- The example state after `commit init` (id `936a18`) and a later edit of
the working file `a`. -/
def committedFS : FS :=
  [([str "a"], Node.file (str "HELLO")),
   ([str "vcs", str "log.txt"], Node.file (str "commit 936a18\nAuthor: bob\ninit\n\n")),
   ([str "vcs", str "commits", str "936a18", str "b"], Node.file (str "world")),
   ([str "vcs", str "commits", str "936a18", str "a"], Node.file (str "hello")),
   ([str "vcs", str "commits", str "936a18"], Node.dir)] ++ exampleFS

/-- An initialised store whose only tracked file is `d/d`, a file in the
directory `d` of the working area. -/
def nestedFS : FS :=
  [([str "vcs"], Node.dir), ([str "vcs", str "commits"], Node.dir),
   ([str "vcs", str "config.txt"], Node.file (str "bob")),
   ([str "vcs", str "index.txt"], Node.file (str "d/d\n")),
   ([str "vcs", str "log.txt"], Node.file []),
   ([str "d"], Node.dir), ([str "d", str "d"], Node.file (str "hello"))]

/-- The example state after the command `commit init` and a later edit of the
working file `a`. -/
def editedFS : FS :=
  FS.set (handleCommit [str "init"] exampleFS).1 [str "a"] (Node.file (str "HELLO"))

/-- An initialised store whose only tracked file is `sub/a`. -/
def subFS : FS :=
  [([str "vcs"], Node.dir), ([str "vcs", str "commits"], Node.dir),
   ([str "vcs", str "config.txt"], Node.file (str "bob")),
   ([str "vcs", str "index.txt"], Node.file (str "sub/a\n")),
   ([str "vcs", str "log.txt"], Node.file []),
   ([str "sub"], Node.dir), ([str "sub", str "a"], Node.file (str "hello"))]

/-- The example state with the two files tracked in the other order. -/
def swappedFS : FS :=
  FS.set exampleFS [str "vcs", str "index.txt"] (Node.file (str "b\na\n"))

/-- A state tracking `a` then `b`, where `a` holds `a` and `b` holds `aa`. -/
def overlapFS : FS :=
  [([str "vcs"], Node.dir), ([str "vcs", str "commits"], Node.dir),
   ([str "vcs", str "config.txt"], Node.file (str "bob")),
   ([str "vcs", str "index.txt"], Node.file (str "a\nb\n")),
   ([str "vcs", str "log.txt"], Node.file []),
   ([str "a"], Node.file (str "a")), ([str "b"], Node.file (str "aa"))]

/-- The state `overlapFS` with the two files tracked in the other order. -/
def overlapSwappedFS : FS :=
  FS.set overlapFS [str "vcs", str "index.txt"] (Node.file (str "b\na\n"))

/-- The history block of a commit, the format string of `handleCommit`. -/
def logBlock (commitID author message : Bytes) : Bytes :=
  str "commit " ++ commitID ++ str "\nAuthor: " ++ author ++ str "\n" ++ message

/-- The runs of the program that start from an empty history file: `CommitRun
fs blocks` holds when `fs` is reached with `blocks` the history blocks of the
successful commits so far, oldest first. Between the commits anything may
happen that leaves the history file as it is. -/
inductive CommitRun : FS → List Bytes → Prop where
  | start (fs : FS) : ReadFile fs logFile = some [] → CommitRun fs []
  | commit (fs : FS) (blocks : List Bytes) (message : Bytes) (rest : List Bytes)
      (author newHash : Bytes) :
      CommitRun fs blocks → ReadFile fs configFile = some author →
      calculateFilesHash fs = some newHash →
      (handleCommit (message :: rest) fs).2 = str "Changes are committed.\n" →
      CommitRun (handleCommit (message :: rest) fs).1
        (blocks ++ [logBlock (newHash.take 6) author message])
  | other (fs fs2 : FS) (blocks : List Bytes) :
      CommitRun fs blocks → ReadFile fs2 logFile = ReadFile fs logFile → CommitRun fs2 blocks

/-- An initialised store whose only tracked file `a` holds `world`. -/
def worldFS : FS :=
  [([str "vcs"], Node.dir), ([str "vcs", str "commits"], Node.dir),
   ([str "vcs", str "config.txt"], Node.file (str "bob")),
   ([str "vcs", str "index.txt"], Node.file (str "a\n")),
   ([str "vcs", str "log.txt"], Node.file []),
   ([str "a"], Node.file (str "world"))]

/-- The example state after the command `commit "fix "`, whose message ends
in a space, and a later edit of the working file `a`. -/
def spacedFS : FS :=
  FS.set (handleCommit [str "fix "] exampleFS).1 [str "a"] (Node.file (str "HELLO"))

/-! ## Lemmas on `Split` and the path functions -/

theorem str_dot : str "." = [46] := by decide

theorem str_dotdot : str ".." = [46, 46] := by decide

theorem str_slash : str "/" = [47] := by decide

theorem str_nl : str "\n" = [10] := by decide

theorem str_nlnl : str "\n\n" = [10, 10] := by decide

theorem splitAux_ne_nil (sep : Bytes) (k : Nat) (s : Bytes) : splitAux sep k s ≠ [] := by
  induction s generalizing k with
  | nil => simp [splitAux]
  | cons c cs ih =>
    cases k with
    | succ k => simpa [splitAux] using ih k
    | zero =>
      unfold splitAux
      split
      · simp
      · cases h : splitAux sep 0 cs with
        | nil => exact absurd h (ih 0)
        | cons a t => simp [consHead]

theorem consHead_append (c : UInt8) (l r : List Bytes) (h : l ≠ []) :
    consHead c (l ++ r) = consHead c l ++ r := by
  cases l with
  | nil => exact absurd rfl h
  | cons a t => rfl

theorem split1_cons (x c : UInt8) (cs : Bytes) :
    Split (c :: cs) [x] = if x = c then [] :: Split cs [x] else consHead c (Split cs [x]) := by
  simp [Split, splitAux]

theorem split1_nil (x : UInt8) : Split [] [x] = [[]] := rfl

/-- Splitting at a one-byte separator distributes over a separator in the middle. -/
theorem split1_append (x : UInt8) (a b : Bytes) :
    Split (a ++ x :: b) [x] = Split a [x] ++ Split b [x] := by
  induction a with
  | nil => simp [split1_cons, split1_nil]
  | cons c cs ih =>
    rw [List.cons_append, split1_cons, split1_cons, ih]
    split
    · rfl
    · exact consHead_append _ _ _ (splitAux_ne_nil _ _ _)

theorem split1_noSep (x : UInt8) (a : Bytes) (h : x ∉ a) : Split a [x] = [a] := by
  induction a with
  | nil => rfl
  | cons c cs ih =>
    have hc : x ≠ c := fun e => h (e ▸ List.mem_cons_self _ _)
    have hcs : x ∉ cs := fun m => h (List.mem_cons_of_mem _ m)
    rw [split1_cons, if_neg hc, ih hcs]
    rfl

theorem validName_iff (n : Bytes) :
    validName n = true ↔ n ≠ [] ∧ 47 ∉ n ∧ n ≠ str "." ∧ n ≠ str ".." := by
  simp [validName]

theorem cleanStep_valid (r : Bool) (st : List Bytes) (c : Bytes) (h : validName c = true) :
    cleanStep r st c = c :: st := by
  obtain ⟨h1, _, h3, h4⟩ := (validName_iff c).1 h
  simp [cleanStep, h1, h3, h4]

theorem foldl_cleanStep_valid (r : Bool) (cs : List Bytes) (st : List Bytes)
    (h : ∀ c ∈ cs, validName c = true) :
    cs.foldl (cleanStep r) st = cs.reverse ++ st := by
  induction cs generalizing st with
  | nil => rfl
  | cons c cs ih =>
    rw [List.foldl_cons, cleanStep_valid r st c (h c (List.mem_cons_self _ _)),
      ih _ (fun d hd => h d (List.mem_cons_of_mem _ hd))]
    simp

theorem intercalate_cons_cons (sep a b : Bytes) (l : List Bytes) :
    sep.intercalate (a :: b :: l) = a ++ sep ++ sep.intercalate (b :: l) := by
  simp [List.intercalate]

theorem intercalate_singleton (sep a : Bytes) : sep.intercalate [a] = a := by
  simp [List.intercalate]

/-- Rendering components with `/` and splitting again gives the components back. -/
theorem split_render (c : Bytes) (cs : List Bytes) (h : ∀ d ∈ c :: cs, (47 : UInt8) ∉ d) :
    Split (List.intercalate [47] (c :: cs)) [47] = c :: cs := by
  induction cs generalizing c with
  | nil =>
    rw [intercalate_singleton]
    exact split1_noSep _ _ (h c (List.mem_cons_self _ _))
  | cons d ds ih =>
    rw [intercalate_cons_cons, List.append_assoc, List.singleton_append, split1_append,
      split1_noSep _ _ (h c (List.mem_cons_self _ _)),
      ih d (fun e he => h e (List.mem_cons_of_mem _ he))]
    rfl

theorem head_render (c : Bytes) (cs : List Bytes) (h : validName c = true) :
    (List.intercalate [47] (c :: cs)).head? ≠ some 47 := by
  obtain ⟨h1, h2, _, _⟩ := (validName_iff c).1 h
  cases c with
  | nil => exact absurd rfl h1
  | cons x xs =>
    have hx : x ≠ 47 := fun e => h2 (e ▸ List.mem_cons_self _ _)
    cases cs with
    | nil => rw [intercalate_singleton]; simpa using hx
    | cons d ds => rw [intercalate_cons_cons]; simpa using hx

theorem render_ne_nil (c : Bytes) (cs : List Bytes) (h : validName c = true) :
    List.intercalate [47] (c :: cs) ≠ [] := by
  obtain ⟨h1, _, _, _⟩ := (validName_iff c).1 h
  cases c with
  | nil => exact absurd rfl h1
  | cons x xs =>
    cases cs with
    | nil => rw [intercalate_singleton]; simp
    | cons d ds => rw [intercalate_cons_cons]; simp

theorem cleanComps_render (c : Bytes) (cs : List Bytes) (h : ∀ d ∈ c :: cs, validName d = true) :
    cleanComps (List.intercalate [47] (c :: cs)) = c :: cs := by
  unfold cleanComps
  rw [split_render c cs (fun d hd => ((validName_iff d).1 (h d hd)).2.1),
    foldl_cleanStep_valid _ _ _ h]
  simp

/-- A rendered list of valid names resolves to that list. -/
theorem resolve_render (c : Bytes) (cs : List Bytes) (h : ∀ d ∈ c :: cs, validName d = true) :
    resolve (List.intercalate [47] (c :: cs)) = c :: cs := by
  unfold resolve
  rw [if_neg (head_render c cs (h c (List.mem_cons_self _ _))), cleanComps_render c cs h]

/-- A valid name resolves to the entry of that name in the current directory. -/
theorem resolve_valid (n : Bytes) (h : validName n = true) : resolve n = [n] := by
  have := resolve_render n [] (by simpa using h)
  rwa [intercalate_singleton] at this

theorem head_append_ne (a b : Bytes) (h : a ≠ []) : (a ++ b).head? = a.head? := by
  cases a with
  | nil => exact absurd rfl h
  | cons x xs => rfl

theorem cleanComps_append (a b : Bytes) (h : a ≠ []) :
    cleanComps (a ++ 47 :: b) =
      ((Split b [47]).foldl (cleanStep (a.head? = some 47))
        ((Split a [47]).foldl (cleanStep (a.head? = some 47)) [])).reverse := by
  unfold cleanComps
  rw [split1_append, List.foldl_append, head_append_ne a _ h]

/-- Joining a valid name to a rendered list of valid names appends it. -/
theorem Join_render (c : Bytes) (cs : List Bytes) (n : Bytes)
    (h : ∀ d ∈ c :: cs, validName d = true) (hn : validName n = true) :
    Join (List.intercalate [47] (c :: cs)) n = List.intercalate [47] (c :: (cs ++ [n])) := by
  have hne := render_ne_nil c cs (h c (List.mem_cons_self _ _))
  have hhd := head_render c cs (h c (List.mem_cons_self _ _))
  have hcc : cleanComps (List.intercalate [47] (c :: cs) ++ 47 :: n) = c :: (cs ++ [n]) := by
    rw [cleanComps_append _ _ hne, split_render c cs (fun d hd => ((validName_iff d).1 (h d hd)).2.1),
      split1_noSep _ _ ((validName_iff n).1 hn).2.1, foldl_cleanStep_valid _ _ _ h]
    simp [cleanStep_valid _ _ _ hn]
  unfold Join Clean
  rw [if_pos hne, head_append_ne _ _ hne, if_neg hhd, hcc]
  simp

/-! ## Lemmas on the digest and the commit id -/

theorem beBytes_length (k n : Nat) : (Sha256.beBytes k n).length = k := by
  induction k generalizing n with
  | zero => rfl
  | succ k ih => simp [Sha256.beBytes, ih]

theorem sha256_length (data : Bytes) : (sha256 data).length = 32 := by
  simp [sha256, Sha256.digestWords, beBytes_length]

theorem hexEncode_length (data : Bytes) : (hexEncode data).length = 2 * data.length := by
  induction data with
  | nil => rfl
  | cons b bs ih =>
    have : hexEncode (b :: bs) = hexDigit (b.toNat / 16) :: hexDigit (b.toNat % 16) :: hexEncode bs := rfl
    rw [this]
    simp [ih]
    omega

theorem hexDigit_mem (n : Nat) : hexDigit n ∈ str "0123456789abcdef" := by
  by_cases h : n < 16
  · interval_cases n <;> decide
  · have : hexDigit n = 48 := by
      unfold hexDigit
      exact List.getD_eq_default _ _ (by simpa using Nat.le_of_not_lt h)
    rw [this]
    decide

theorem hexEncode_mem (data : Bytes) : ∀ c ∈ hexEncode data, c ∈ str "0123456789abcdef" := by
  intro c hc
  simp only [hexEncode, List.mem_flatMap] at hc
  obtain ⟨b, _, hb⟩ := hc
  simp only [List.mem_cons, List.mem_singleton, List.not_mem_nil, or_false] at hb
  rcases hb with rfl | rfl <;> exact hexDigit_mem _

/-- The fingerprint is 64 characters long. -/
theorem fingerprint_length (data : Bytes) : (hexEncode (sha256 data)).length = 64 := by
  rw [hexEncode_length, sha256_length]

/-- The first six characters of a fingerprint form a valid directory name. -/
theorem commitID_valid (data : Bytes) : validName ((hexEncode (sha256 data)).take 6) = true := by
  have hlen : ((hexEncode (sha256 data)).take 6).length = 6 := by
    rw [List.length_take, fingerprint_length]; rfl
  have hmem : ∀ c ∈ (hexEncode (sha256 data)).take 6, c ∈ str "0123456789abcdef" :=
    fun c hc => hexEncode_mem _ c (List.mem_of_mem_take hc)
  rw [validName_iff]
  refine ⟨?_, ?_, ?_, ?_⟩
  · intro h; rw [h] at hlen; exact absurd hlen (by decide)
  · intro h; exact absurd (hmem _ h) (by decide)
  · intro h; rw [h] at hlen; exact absurd hlen (by decide)
  · intro h; rw [h] at hlen; exact absurd hlen (by decide)

/-! ## Paths of the store -/

theorem validName_vcs : validName (str "vcs") = true := by decide

theorem validName_commits : validName (str "commits") = true := by decide

theorem commitsDir_eq : commitsDir = 46 :: 47 :: List.intercalate [47] [str "vcs", str "commits"] := by
  decide

/-- The path of the commit directory of a valid id. -/
theorem Join_commitsDir (id : Bytes) (h : validName id = true) :
    Join commitsDir id = List.intercalate [47] [str "vcs", str "commits", id] := by
  have hne : commitsDir ≠ [] := by decide
  have hhd : ¬ commitsDir.head? = some 47 := by decide
  have hcc : cleanComps (commitsDir ++ 47 :: id) = [str "vcs", str "commits", id] := by
    rw [cleanComps_append _ _ hne, split1_noSep _ _ ((validName_iff id).1 h).2.1]
    have : (Split commitsDir [47]).foldl (cleanStep (commitsDir.head? = some 47)) []
        = [str "commits", str "vcs"] := by decide
    rw [this]
    simp [cleanStep_valid _ _ _ h]
  unfold Join Clean
  rw [if_pos hne, head_append_ne _ _ hne, if_neg hhd, hcc]
  simp

theorem resolve_Join_commitsDir (id : Bytes) (h : validName id = true) :
    resolve (Join commitsDir id) = [str "vcs", str "commits", id] := by
  rw [Join_commitsDir id h]
  apply resolve_render
  intro d hd
  simp only [List.mem_cons, List.mem_singleton, List.not_mem_nil, or_false] at hd
  rcases hd with rfl | rfl | rfl
  · exact validName_vcs
  · exact validName_commits
  · exact h

theorem Join_commitsDir_ne_nil (id : Bytes) (h : validName id = true) : Join commitsDir id ≠ [] := by
  rw [Join_commitsDir id h]
  exact render_ne_nil _ _ validName_vcs

/-- The path of a stored file in the commit directory of a valid id. -/
theorem resolve_Join_commit_file (id n : Bytes) (h : validName id = true) (hn : validName n = true) :
    resolve (Join (Join commitsDir id) n) = [str "vcs", str "commits", id, n] := by
  have hall : ∀ d ∈ [str "vcs", str "commits", id], validName d = true := by
    intro d hd
    simp only [List.mem_cons, List.mem_singleton, List.not_mem_nil, or_false] at hd
    rcases hd with rfl | rfl | rfl
    · exact validName_vcs
    · exact validName_commits
    · exact h
  rw [Join_commitsDir id h, Join_render _ _ n hall hn]
  apply resolve_render
  intro d hd
  simp only [List.cons_append, List.nil_append, List.mem_cons, List.mem_singleton,
    List.not_mem_nil, or_false] at hd
  rcases hd with rfl | rfl | rfl | rfl
  · exact validName_vcs
  · exact validName_commits
  · exact h
  · exact hn

theorem Join_commit_file_ne_nil (id n : Bytes) (h : validName id = true) (hn : validName n = true) :
    Join (Join commitsDir id) n ≠ [] := by
  have hall : ∀ d ∈ [str "vcs", str "commits", id], validName d = true := by
    intro d hd
    simp only [List.mem_cons, List.mem_singleton, List.not_mem_nil, or_false] at hd
    rcases hd with rfl | rfl | rfl
    · exact validName_vcs
    · exact validName_commits
    · exact h
  rw [Join_commitsDir id h, Join_render _ _ n hall hn]
  exact render_ne_nil _ _ validName_vcs

theorem dropWhile_none {α : Type} (p : α → Bool) (l : List α) (h : ∀ x ∈ l, p x = false) :
    l.dropWhile p = l := by
  cases l with
  | nil => rfl
  | cons x xs => simp [List.dropWhile, h x (List.mem_cons_self _ _)]

theorem takeWhile_all {α : Type} (p : α → Bool) (l : List α) (h : ∀ x ∈ l, p x = true) :
    l.takeWhile p = l := by
  induction l with
  | nil => rfl
  | cons x xs ih =>
    simp [List.takeWhile, h x (List.mem_cons_self _ _), ih (fun y hy => h y (List.mem_cons_of_mem _ hy))]

/-- The result of `filepath.Base` is `/` or a non-empty string without a slash. -/
theorem Base_cases (path : Bytes) : Base path = [47] ∨ (Base path ≠ [] ∧ (47 : UInt8) ∉ Base path) := by
  unfold Base
  by_cases hp : path = []
  · right
    rw [if_pos hp]
    decide
  · rw [if_neg hp]
    simp only []
    split
    · left; decide
    · rename_i hb
      right
      refine ⟨hb, ?_⟩
      intro hm
      have hm2 := List.mem_reverse.1 hm
      have := List.mem_takeWhile_imp hm2
      simp at this

/-- The base name of a valid name is the name itself. -/
theorem Base_valid (n : Bytes) (h : validName n = true) : Base n = n := by
  obtain ⟨h1, h2, _, _⟩ := (validName_iff n).1 h
  unfold Base
  rw [if_neg h1]
  have hd : (n.reverse.dropWhile fun c => decide (c = 47)) = n.reverse :=
    dropWhile_none _ _ (fun x hx => by
      have : x ≠ 47 := fun e => h2 (e ▸ List.mem_reverse.1 hx)
      simpa using this)
  have ht : (n.reverse.takeWhile fun c => decide (c ≠ 47)) = n.reverse :=
    takeWhile_all _ _ (fun x hx => by
      have : x ≠ 47 := fun e => h2 (e ▸ List.mem_reverse.1 hx)
      simpa using this)
  simp only [hd, List.reverse_reverse, ht]
  rw [if_neg h1]

/-- Where `handleCommit` writes the copy of a tracked file: into the commit
directory under a valid name, or at a path that is a directory. -/
theorem commit_dst_cases (id file : Bytes) (h : validName id = true) :
    resolve (Join (Join commitsDir id) (Base file)) = [str "vcs", str "commits"] ∨
    resolve (Join (Join commitsDir id) (Base file)) = [str "vcs", str "commits", id] ∨
    ∃ b, validName b = true ∧ Base file = b ∧
      resolve (Join (Join commitsDir id) (Base file)) = [str "vcs", str "commits", id, b] := by
  have hall : ∀ d ∈ [str "vcs", str "commits", id], validName d = true := by
    intro d hd
    simp only [List.mem_cons, List.mem_singleton, List.not_mem_nil, or_false] at hd
    rcases hd with rfl | rfl | rfl
    · exact validName_vcs
    · exact validName_commits
    · exact h
  have hall2 : ∀ d ∈ [str "vcs", str "commits"], validName d = true :=
    fun d hd => hall d (by simp at hd ⊢; tauto)
  have hne := render_ne_nil (str "vcs") [str "commits", id] validName_vcs
  have hhd := head_render (str "vcs") [str "commits", id] validName_vcs
  have hsplit := split_render (str "vcs") [str "commits", id]
    (fun d hd => ((validName_iff d).1 (hall d hd)).2.1)
  have hfold : [str "vcs", str "commits", id].foldl (cleanStep false) [] = [id, str "commits", str "vcs"] := by
    rw [foldl_cleanStep_valid _ _ _ hall]; rfl
  have hcc : ∀ b, cleanComps (List.intercalate [47] [str "vcs", str "commits", id] ++ 47 :: b)
      = ((Split b [47]).foldl (cleanStep false) [id, str "commits", str "vcs"]).reverse := by
    intro b
    rw [cleanComps_append _ _ hne, hsplit]
    simp only [hhd, decide_False, hfold]
  by_cases hv : validName (Base file) = true
  · right; right
    exact ⟨Base file, hv, rfl, resolve_Join_commit_file id _ h hv⟩
  · have hid : (id = str "..") = False := eq_false ((validName_iff id).1 h).2.2.2
    rcases Base_cases file with hb | ⟨hb1, hb2⟩
    · right; left
      rw [Join_commitsDir id h, hb]
      have : Join (List.intercalate [47] [str "vcs", str "commits", id]) [47]
          = List.intercalate [47] [str "vcs", str "commits", id] := by
        unfold Join Clean
        rw [if_pos hne, head_append_ne _ _ hne, if_neg hhd, hcc]
        simp [split1_cons, split1_nil, cleanStep, consHead]
      rw [this]
      exact resolve_render _ _ hall
    · have hdots : Base file = str "." ∨ Base file = str ".." := by
        by_contra hcon
        push_neg at hcon
        exact hv ((validName_iff _).2 ⟨hb1, hb2, hcon.1, hcon.2⟩)
      rcases hdots with hd | hd
      · right; left
        rw [Join_commitsDir id h, hd]
        have : Join (List.intercalate [47] [str "vcs", str "commits", id]) (str ".")
            = List.intercalate [47] [str "vcs", str "commits", id] := by
          unfold Join Clean
          rw [if_pos hne, head_append_ne _ _ hne, if_neg hhd, hcc]
          have : Split (str ".") [47] = [str "."] := by decide
          rw [this]
          simp [cleanStep]
        rw [this]
        exact resolve_render _ _ hall
      · left
        rw [Join_commitsDir id h, hd]
        have : Join (List.intercalate [47] [str "vcs", str "commits", id]) (str "..")
            = List.intercalate [47] [str "vcs", str "commits"] := by
          unfold Join Clean
          rw [if_pos hne, head_append_ne _ _ hne, if_neg hhd, hcc]
          have : Split (str "..") [47] = [str ".."] := by decide
          rw [this]
          have h1 : (str ".." = []) = False := by decide
          have h2 : (str ".." = str ".") = False := by decide
          simp [cleanStep, h1, h2, hid]
        rw [this]
        exact resolve_render _ _ hall2

/-! ## Lemmas on the file system -/

theorem get_set_ne (fs : FS) (k q : Path) (n : Node) (h : q ≠ k) :
    (fs.set k n).get q = fs.get q := by
  unfold FS.get FS.set
  split
  · rfl
  · have hb : (q == k) = false := by simpa using h
    simp [List.lookup, hb]

theorem get_set_self (fs : FS) (k : Path) (n : Node) (h : fs.get k ≠ some Node.dir) :
    (fs.set k n).get k = some n := by
  unfold FS.get at h ⊢
  split
  · rename_i hs; rw [if_pos hs] at h; exact absurd rfl h
  · simp [FS.set, List.lookup]

theorem get_set_dir (fs : FS) (k q : Path) (n : Node) (hk : fs.get k ≠ some Node.dir)
    (h : fs.get q = some Node.dir) : (fs.set k n).get q = some Node.dir := by
  have : q ≠ k := fun e => hk (e ▸ h)
  rw [get_set_ne _ _ _ _ this, h]

theorem canCreate_iff (fs : FS) (p : Bytes) :
    canCreate fs p = true ↔
      p ≠ [] ∧ fs.get (resolve p) ≠ some Node.dir ∧ fs.get (resolve p).dropLast = some Node.dir := by
  simp [canCreate]

theorem ReadFile_eq_some (fs : FS) (p d : Bytes) :
    ReadFile fs p = some d ↔ p ≠ [] ∧ fs.get (resolve p) = some (Node.file d) := by
  unfold ReadFile FS.node
  by_cases hp : p = []
  · simp [hp]
  · rw [if_neg hp]
    constructor
    · intro h
      split at h
      · rename_i d2 heq
        simp only [Option.some.injEq] at h
        subst h
        exact ⟨hp, heq⟩
      · exact absurd h (by simp)
    · rintro ⟨_, h⟩
      rw [h]

/-- Two file systems with the same node at the path of `p` read the same. -/
theorem ReadFile_congr (fs fs2 : FS) (p : Bytes) (h : fs2.get (resolve p) = fs.get (resolve p)) :
    ReadFile fs2 p = ReadFile fs p := by
  unfold ReadFile FS.node
  rw [h]

theorem copyFile_get_ne (fs : FS) (src dst : Bytes) (q : Path) (h : q ≠ resolve dst) :
    (copyFile fs src dst).1.get q = fs.get q := by
  unfold copyFile
  split
  · rfl
  · split
    · simp only []
      split
      · simp only [get_set_ne _ _ _ _ h]
      · simp only [get_set_ne _ _ _ _ h]
    · rfl

theorem copyFile_dir (fs : FS) (src dst : Bytes) (q : Path) (h : fs.get q = some Node.dir) :
    (copyFile fs src dst).1.get q = some Node.dir := by
  by_cases hq : q = resolve dst
  · unfold copyFile
    split
    · exact h
    · split
      · rename_i hc
        have := ((canCreate_iff _ _).1 hc).2.1
        rw [← hq] at this
        exact absurd h this
      · exact h
  · rw [copyFile_get_ne _ _ _ _ hq, h]

/-- A successful copy between different paths writes the bytes of the source. -/
theorem copyFile_ok (fs : FS) (src dst : Bytes) (h : (copyFile fs src dst).2 = true)
    (hne : resolve src ≠ resolve dst) :
    ∃ d, ReadFile fs src = some d ∧ (copyFile fs src dst).1.get (resolve dst) = some (Node.file d) := by
  unfold copyFile at h ⊢
  split
  · rename_i h0; rw [h0] at h; simp at h
  · rename_i nd h0
    rw [h0] at h
    by_cases hc : canCreate fs dst = true
    · rw [if_pos hc] at h ⊢
      simp only [] at h ⊢
      have hsrc : src ≠ [] := by
        intro e; rw [e] at h0; simp [FS.node] at h0
      have hnode : (fs.set (resolve dst) (Node.file [])).node src = fs.node src := by
        unfold FS.node
        rw [if_neg hsrc, if_neg hsrc, get_set_ne _ _ _ _ hne]
      rw [hnode] at h ⊢
      rw [h0] at h ⊢
      cases nd with
      | dir => simp at h
      | file d =>
        refine ⟨d, ?_, ?_⟩
        · unfold ReadFile; rw [h0]
        · simp only []
          have hd : (fs.set (resolve dst) (Node.file [])).get (resolve dst) ≠ some Node.dir := by
            rw [get_set_self _ _ _ ((canCreate_iff _ _).1 hc).2.1]; simp
          exact get_set_self _ _ _ hd
    · rw [if_neg hc] at h; simp at h

/-- A copy from a regular file to a different path that can be created succeeds. -/
theorem copyFile_succeeds (fs : FS) (src dst d : Bytes) (hs : ReadFile fs src = some d)
    (hc : canCreate fs dst = true) (hne : resolve src ≠ resolve dst) :
    (copyFile fs src dst).2 = true := by
  obtain ⟨hsrc, hget⟩ := (ReadFile_eq_some _ _ _).1 hs
  have h0 : fs.node src = some (Node.file d) := by
    unfold FS.node; rw [if_neg hsrc, hget]
  have hnode : (fs.set (resolve dst) (Node.file [])).node src = some (Node.file d) := by
    unfold FS.node
    rw [if_neg hsrc, get_set_ne _ _ _ _ hne, hget]
  unfold copyFile
  rw [h0]
  simp only [hc, if_true, hnode]

/-- A copy that returns an error changed nothing or left an empty destination. -/
theorem copyFile_get_dst (fs : FS) (src dst : Bytes) :
    (copyFile fs src dst).1.get (resolve dst) = fs.get (resolve dst) ∨
      ∃ d, (copyFile fs src dst).1.get (resolve dst) = some (Node.file d) := by
  unfold copyFile
  split
  · left; rfl
  · by_cases hc : canCreate fs dst = true
    · rw [if_pos hc]
      right
      have h1 := get_set_self fs (resolve dst) (Node.file []) ((canCreate_iff _ _).1 hc).2.1
      have hd : (fs.set (resolve dst) (Node.file [])).get (resolve dst) ≠ some Node.dir := by
        rw [h1]; simp
      simp only []
      split
      · rename_i d _
        exact ⟨d, get_set_self _ _ _ hd⟩
      · exact ⟨[], h1⟩
    · rw [if_neg hc]; left; rfl

/-- One step of `MkdirAll`: create the directory when nothing is there. -/
theorem mkdirStep_get (s : FS) (k q : Path) :
    (if s.get k = none then s.set k Node.dir else s).get q =
      if q = k ∧ s.get q = none then some Node.dir else s.get q := by
  by_cases hk : s.get k = none
  · rw [if_pos hk]
    by_cases hq : q = k
    · subst hq
      rw [if_pos ⟨rfl, hk⟩]
      exact get_set_self _ _ _ (by rw [hk]; simp)
    · rw [if_neg (fun h => hq h.1), get_set_ne _ _ _ _ hq]
  · rw [if_neg hk]
    by_cases hq : q = k
    · subst hq
      rw [if_neg (fun h => hk h.2)]
    · rw [if_neg (fun h => hq h.1)]

theorem mkdirFold_get (qs : List Path) (s : FS) (q : Path) :
    (qs.foldl (fun s k => if s.get k = none then s.set k Node.dir else s) s).get q =
      if q ∈ qs ∧ s.get q = none then some Node.dir else s.get q := by
  induction qs generalizing s with
  | nil => simp
  | cons k ks ih =>
    rw [List.foldl_cons, ih, mkdirStep_get]
    by_cases hq : q = k
    · by_cases hn : s.get q = none
      · simp [hq, hn]
        rw [hq] at hn
        simp [hn]
      · simp [hq, hn]
        rw [hq] at hn
        simp [hn]
    · by_cases hn : s.get q = none <;> simp [hq, hn]

theorem MkdirAll_get (fs fs1 : FS) (p : Bytes) (h : MkdirAll fs p = some fs1) (q : Path) :
    fs1.get q = if q ∈ (resolve p).inits ∧ fs.get q = none then some Node.dir else fs.get q := by
  unfold MkdirAll at h
  split at h
  · exact absurd h (by simp)
  · simp only [Option.some.injEq] at h
    rw [← h, mkdirFold_get]

/-- The function `MkdirAll` leaves every existing node as it is. -/
theorem MkdirAll_get_of_ne_none (fs fs1 : FS) (p : Bytes) (h : MkdirAll fs p = some fs1) (q : Path)
    (hq : fs.get q ≠ none) : fs1.get q = fs.get q := by
  rw [MkdirAll_get fs fs1 p h, if_neg (fun c => hq c.2)]

/-- After `MkdirAll` the path is a directory. -/
theorem MkdirAll_dir (fs fs1 : FS) (p : Bytes) (h : MkdirAll fs p = some fs1) :
    fs1.get (resolve p) = some Node.dir := by
  rw [MkdirAll_get fs fs1 p h]
  unfold MkdirAll at h
  split at h
  · exact absurd h (by simp)
  · rename_i hc
    push_neg at hc
    have hmem : resolve p ∈ (resolve p).inits := by simp
    have hnf : Node.isFile (fs.get (resolve p)) = false := by
      cases hf : Node.isFile (fs.get (resolve p)) with
      | false => rfl
      | true => exact absurd (List.any_eq_true.2 ⟨_, hmem, hf⟩) hc.2
    cases hg : fs.get (resolve p) with
    | none => simp [hmem]
    | some nd =>
      cases nd with
      | dir => simp
      | file d => rw [hg] at hnf; simp [Node.isFile] at hnf

theorem MkdirAll_ReadFile (fs fs1 : FS) (p f : Bytes) (h : MkdirAll fs p = some fs1) :
    ReadFile fs1 f = ReadFile fs f := by
  unfold ReadFile FS.node
  by_cases hf : f = []
  · simp [hf]
  · rw [if_neg hf, if_neg hf, MkdirAll_get fs fs1 p h]
    by_cases hc : resolve f ∈ (resolve p).inits ∧ fs.get (resolve f) = none
    · rw [if_pos hc, hc.2]
    · rw [if_neg hc]

theorem appendToFile_eq (fs fs1 : FS) (p c : Bytes) (h : appendToFile fs p c = some fs1) :
    canCreate fs p = true ∧
      fs1 = fs.set (resolve p) (Node.file ((ReadFile fs p).getD [] ++ c)) := by
  unfold appendToFile at h
  split at h
  · rename_i hc
    simp only [Option.some.injEq] at h
    exact ⟨hc, h.symm⟩
  · exact absurd h (by simp)

theorem appendToFile_get_ne (fs fs1 : FS) (p c : Bytes) (h : appendToFile fs p c = some fs1)
    (q : Path) (hq : q ≠ resolve p) : fs1.get q = fs.get q := by
  rw [(appendToFile_eq fs fs1 p c h).2, get_set_ne _ _ _ _ hq]

theorem appendToFile_ReadFile (fs fs1 : FS) (p c : Bytes) (h : appendToFile fs p c = some fs1) :
    ReadFile fs1 p = some ((ReadFile fs p).getD [] ++ c) := by
  obtain ⟨hc, he⟩ := appendToFile_eq fs fs1 p c h
  obtain ⟨hp, hd, _⟩ := (canCreate_iff _ _).1 hc
  rw [ReadFile_eq_some, he]
  exact ⟨hp, get_set_self _ _ _ hd⟩

theorem appendToFile_dir (fs fs1 : FS) (p c : Bytes) (h : appendToFile fs p c = some fs1)
    (q : Path) (hq : fs.get q = some Node.dir) : fs1.get q = some Node.dir := by
  obtain ⟨hc, he⟩ := appendToFile_eq fs fs1 p c h
  rw [he]
  exact get_set_dir _ _ _ _ ((canCreate_iff _ _).1 hc).2.1 hq

/-- The copy loop of `handleCommit` changes nothing outside its destinations. -/
theorem commitFiles_get (cp : Bytes) (files : List Bytes) (fs : FS) (q : Path)
    (h : ∀ f ∈ files, q ≠ resolve (Join cp (Base f))) :
    (commitFiles cp files fs).1.get q = fs.get q := by
  induction files generalizing fs with
  | nil => rfl
  | cons f rest ih =>
    have hq := copyFile_get_ne fs f (Join cp (Base f)) q (h f (List.mem_cons_self _ _))
    unfold commitFiles
    cases hc : copyFile fs f (Join cp (Base f)) with
    | mk fs1 ok =>
      rw [hc] at hq
      cases ok with
      | true =>
        simp only []
        rw [ih fs1 (fun g hg => h g (List.mem_cons_of_mem _ hg))]
        exact hq
      | false => exact hq

theorem commitFiles_dir (cp : Bytes) (files : List Bytes) (fs : FS) (q : Path)
    (h : fs.get q = some Node.dir) : (commitFiles cp files fs).1.get q = some Node.dir := by
  induction files generalizing fs with
  | nil => exact h
  | cons f rest ih =>
    have hq := copyFile_dir fs f (Join cp (Base f)) q h
    unfold commitFiles
    cases hc : copyFile fs f (Join cp (Base f)) with
    | mk fs1 ok =>
      rw [hc] at hq
      cases ok with
      | true => exact ih fs1 hq
      | false => exact hq

/-- The restore loop of `handleCheckout` changes nothing outside its destinations. -/
theorem restoreFiles_get (cp : Bytes) (files : List (Bytes × Bool)) (fs : FS) (q : Path)
    (h : ∀ e ∈ files, q ≠ resolve e.1) :
    (restoreFiles cp files fs).1.get q = fs.get q := by
  induction files generalizing fs with
  | nil => rfl
  | cons f rest ih =>
    have hq := copyFile_get_ne fs (Join cp f.1) f.1 q (h f (List.mem_cons_self _ _))
    unfold restoreFiles
    cases hc : copyFile fs (Join cp f.1) f.1 with
    | mk fs1 ok =>
      rw [hc] at hq
      cases ok with
      | true =>
        simp only []
        rw [ih fs1 (fun g hg => h g (List.mem_cons_of_mem _ hg))]
        exact hq
      | false => exact hq

/-! ## The outcomes of `handleCommit` -/

theorem calculateFilesHash_eq_some (fs : FS) (newHash : Bytes) (h : calculateFilesHash fs = some newHash) :
    ∃ files data, getTrackedFiles fs = some files ∧ readAll fs files = some data ∧
      newHash = hexEncode (sha256 data) := by
  unfold calculateFilesHash at h
  cases hf : getTrackedFiles fs with
  | none => rw [hf] at h; exact absurd h (by simp)
  | some files =>
    rw [hf] at h
    simp only [] at h
    cases hd : readAll fs files with
    | none => rw [hd] at h; exact absurd h (by simp)
    | some data =>
      rw [hd] at h
      simp only [Option.map_some', Option.some.injEq] at h
      exact ⟨files, data, rfl, hd, h.symm⟩

theorem newHash_take_valid (fs : FS) (newHash : Bytes) (h : calculateFilesHash fs = some newHash) :
    validName (newHash.take 6) = true := by
  obtain ⟨_, data, _, _, he⟩ := calculateFilesHash_eq_some fs newHash h
  rw [he]
  exact commitID_valid data

theorem copy_error_ne_success (file : Bytes) :
    str "Error: Could not copy '" ++ file ++ str "'.\n" ≠ str "Changes are committed.\n" := by
  intro h
  have := congrArg List.head? h
  rw [List.append_assoc, head_append_ne _ _ (by decide)] at this
  exact absurd this (by decide)

theorem msg_ne_success :
    str "Message was not passed.\n" ≠ str "Changes are committed.\n" ∧
    str "Error: Could not read username from config.txt.\n" ≠ str "Changes are committed.\n" ∧
    str "Error: Could not calculate hash.\n" ≠ str "Changes are committed.\n" ∧
    str "Nothing to commit.\n" ≠ str "Changes are committed.\n" ∧
    str "Error: Could not create commit directory.\n" ≠ str "Changes are committed.\n" ∧
    str "Error: Could not read tracked files.\n" ≠ str "Changes are committed.\n" ∧
    str "Error: Could not write to log file.\n" ≠ str "Changes are committed.\n" := by
  decide

/-- The three kinds of outcome of `handleCommit`: nothing written; the commit
directory made and some files copied, then an error; or success, with the
history entry appended last. -/
theorem handleCommit_shape (message : Bytes) (rest : List Bytes) (fs : FS) :
    ((handleCommit (message :: rest) fs).1 = fs ∧
      (handleCommit (message :: rest) fs).2 ≠ str "Changes are committed.\n") ∨
    (∃ newHash fs1, calculateFilesHash fs = some newHash ∧
      MkdirAll fs (Join commitsDir (newHash.take 6)) = some fs1 ∧
      (handleCommit (message :: rest) fs).2 ≠ str "Changes are committed.\n" ∧
      ((handleCommit (message :: rest) fs).1 = fs1 ∨
        ∃ files, (handleCommit (message :: rest) fs).1
          = (commitFiles (Join commitsDir (newHash.take 6)) files fs1).1)) ∨
    (∃ author newHash fs1 files fs3, ReadFile fs configFile = some author ∧ author ≠ [] ∧
      calculateFilesHash fs = some newHash ∧ getLastCommitHash fs ≠ some newHash ∧
      MkdirAll fs (Join commitsDir (newHash.take 6)) = some fs1 ∧
      getTrackedFiles fs1 = some files ∧
      (commitFiles (Join commitsDir (newHash.take 6)) files fs1).2 = none ∧
      appendToFile (commitFiles (Join commitsDir (newHash.take 6)) files fs1).1 logFile
        (str "commit " ++ newHash.take 6 ++ str "\nAuthor: " ++ author ++ str "\n" ++ message
          ++ str "\n\n") = some fs3 ∧
      handleCommit (message :: rest) fs = (fs3, str "Changes are committed.\n")) := by
  unfold handleCommit
  cases hcfg : ReadFile fs configFile with
  | none => left; exact ⟨rfl, msg_ne_success.2.1⟩
  | some author =>
    simp only []
    by_cases ha : author.length = 0
    · rw [if_pos ha]; left; exact ⟨rfl, msg_ne_success.2.1⟩
    · rw [if_neg ha]
      cases hh : calculateFilesHash fs with
      | none => left; exact ⟨rfl, msg_ne_success.2.2.1⟩
      | some newHash =>
        simp only []
        by_cases hl : getLastCommitHash fs = some newHash
        · rw [if_pos hl]; left; exact ⟨rfl, msg_ne_success.2.2.2.1⟩
        · rw [if_neg hl]
          cases hm : MkdirAll fs (Join commitsDir (newHash.take 6)) with
          | none => left; exact ⟨rfl, msg_ne_success.2.2.2.2.1⟩
          | some fs1 =>
            simp only []
            cases ht : getTrackedFiles fs1 with
            | none =>
              right; left
              exact ⟨newHash, fs1, rfl, hm, msg_ne_success.2.2.2.2.2.1, Or.inl rfl⟩
            | some files =>
              simp only []
              cases hc : commitFiles (Join commitsDir (newHash.take 6)) files fs1 with
              | mk fs2 res =>
                cases res with
                | some file =>
                  right; left
                  exact ⟨newHash, fs1, rfl, hm, copy_error_ne_success file, Or.inr ⟨files, by rw [hc]⟩⟩
                | none =>
                  simp only []
                  cases hap : appendToFile fs2 logFile (str "commit " ++ newHash.take 6 ++ str "\nAuthor: "
                      ++ author ++ str "\n" ++ message ++ str "\n\n") with
                  | none =>
                    right; left
                    exact ⟨newHash, fs1, rfl, hm, msg_ne_success.2.2.2.2.2.2, Or.inr ⟨files, by rw [hc]⟩⟩
                  | some fs3 =>
                    right; right
                    refine ⟨author, newHash, fs1, files, fs3, rfl, ?_, rfl, hl, hm, ht, ?_, ?_, rfl⟩
                    · intro e; exact ha (by rw [e]; rfl)
                    · rw [hc]
                    · rw [hc]; exact hap

/-! ## Directory listings -/

theorem mem_insertName (x n : Bytes) (l : List Bytes) : x ∈ insertName n l ↔ x = n ∨ x ∈ l := by
  induction l with
  | nil => simp [insertName]
  | cons m ms ih =>
    unfold insertName
    by_cases h1 : n = m
    · rw [if_pos h1]
      subst h1
      simp
    · rw [if_neg h1]
      by_cases h2 : bytesLt n m = true
      · rw [if_pos h2]; simp
      · rw [if_neg h2]
        simp only [List.mem_cons, ih]
        tauto

theorem mem_foldr_insertName (x : Bytes) (l : List Bytes) : x ∈ l.foldr insertName [] ↔ x ∈ l := by
  induction l with
  | nil => simp
  | cons m ms ih => rw [List.foldr_cons, mem_insertName, ih]; simp

theorem lookup_of_mem (fs : FS) (k : Path) (nd : Node) (h : (k, nd) ∈ fs) :
    ∃ nd2, fs.lookup k = some nd2 := by
  induction fs with
  | nil => simp at h
  | cons e es ih =>
    obtain ⟨k2, n2⟩ := e
    by_cases hk : k = k2
    · subst hk
      exact ⟨n2, by simp [List.lookup]⟩
    · have hb : (k == k2) = false := by simpa using hk
      have hm : (k, nd) ∈ es := by
        rcases List.mem_cons.1 h with h1 | h1
        · exact absurd (congrArg Prod.fst h1) hk
        · exact h1
      obtain ⟨nd2, h2⟩ := ih hm
      exact ⟨nd2, by simp [List.lookup, hb, h2]⟩

theorem mem_of_lookup (fs : FS) (k : Path) (nd : Node) (h : fs.lookup k = some nd) : (k, nd) ∈ fs := by
  induction fs with
  | nil => simp [List.lookup] at h
  | cons e es ih =>
    obtain ⟨k2, n2⟩ := e
    by_cases hk : k = k2
    · subst hk
      simp [List.lookup] at h
      subst h
      exact List.mem_cons_self _ _
    · have hb : (k == k2) = false := by simpa using hk
      simp [List.lookup, hb] at h
      exact List.mem_cons_of_mem _ (ih h)

/-- The node below a directory under a valid name is the recorded one. -/
theorem get_child (fs : FS) (k : Path) (n : Bytes) (h : validName n = true) :
    fs.get (k ++ [n]) = fs.lookup (k ++ [n]) := by
  obtain ⟨_, h2, _, h4⟩ := (validName_iff n).1 h
  unfold FS.get
  rw [if_neg]
  rintro (hall | hroot)
  · rw [List.all_eq_true] at hall
    have := hall n (by simp)
    exact h4 (by simpa using this)
  · have hn : n = str "/" := by
      have := congrArg List.getLast? hroot
      simpa using this
    rw [hn] at h2
    exact h2 (by decide)

/-- The entries of a directory are the valid names with a node below it. -/
theorem mem_childNames (fs : FS) (k : Path) (n : Bytes) :
    n ∈ childNames fs k ↔ validName n = true ∧ ∃ nd, fs.get (k ++ [n]) = some nd := by
  unfold childNames
  rw [mem_foldr_insertName, List.mem_filterMap]
  constructor
  · rintro ⟨e, he, hf⟩
    cases hl : e.1.getLast? with
    | none => rw [hl] at hf; exact absurd hf (by simp)
    | some m =>
      rw [hl] at hf
      simp only [] at hf
      by_cases hc : e.1.dropLast = k ∧ validName m = true
      · rw [if_pos hc] at hf
        simp only [Option.some.injEq] at hf
        subst hf
        have hk : k ++ [m] = e.1 := by
          rw [← hc.1]
          exact List.dropLast_append_getLast? m hl
        refine ⟨hc.2, ?_⟩
        rw [get_child fs k m hc.2, hk]
        exact lookup_of_mem fs e.1 e.2 he
      · rw [if_neg hc] at hf; exact absurd hf (by simp)
  · rintro ⟨hv, nd, hg⟩
    rw [get_child fs k n hv] at hg
    refine ⟨(k ++ [n], nd), mem_of_lookup fs _ _ hg, ?_⟩
    simp [hv]

theorem ReadDir_eq_some (fs : FS) (p : Bytes) (files : List (Bytes × Bool)) (h : ReadDir fs p = some files) :
    fs.node p = some Node.dir ∧
      files = (childNames fs (resolve p)).map fun n => (n, decide (fs.get (resolve p ++ [n]) = some Node.dir)) := by
  unfold ReadDir at h
  split at h
  · rename_i hn
    simp only [Option.some.injEq] at h
    exact ⟨hn, h.symm⟩
  · exact absurd h (by simp)

/-- Every entry that `os.ReadDir` returns has a valid name and names a node. -/
theorem ReadDir_mem (fs : FS) (p : Bytes) (files : List (Bytes × Bool)) (h : ReadDir fs p = some files)
    (e : Bytes × Bool) (he : e ∈ files) :
    validName e.1 = true ∧ (∃ nd, fs.get (resolve p ++ [e.1]) = some nd) ∧
      (e.2 = true ↔ fs.get (resolve p ++ [e.1]) = some Node.dir) := by
  obtain ⟨_, hf⟩ := ReadDir_eq_some fs p files h
  rw [hf, List.mem_map] at he
  obtain ⟨n, hn, rfl⟩ := he
  obtain ⟨hv, hnd⟩ := (mem_childNames fs _ n).1 hn
  exact ⟨hv, hnd, by simp⟩

/-- The restore loop of `handleCheckout` only writes entries of the current
directory. -/
theorem restoreFiles_get_outside (fs : FS) (cp : Bytes) (files : List (Bytes × Bool))
    (hv : ∀ e ∈ files, validName e.1 = true) (q : Path) (hq : ∀ e ∈ files, q ≠ [e.1]) :
    (restoreFiles cp files fs).1.get q = fs.get q := by
  apply restoreFiles_get
  intro e he
  rw [resolve_valid e.1 (hv e he)]
  exact hq e he

/-! ## The fuel of the walk -/

theorem below_child_lt (fs : FS) (k : Path) (n : Bytes) (h : n ∈ childNames fs k) :
    (below fs (k ++ [n])).length < (below fs k).length := by
  obtain ⟨hv, nd, hg⟩ := (mem_childNames fs k n).1 h
  rw [get_child fs k n hv] at hg
  have hmem := mem_of_lookup fs _ _ hg
  have hsub : below fs (k ++ [n])
      = (below fs k).filter fun e => decide (k ++ [n] <+: e.1 ∧ e.1 ≠ k ++ [n]) := by
    unfold below
    rw [List.filter_filter]
    apply List.filter_congr
    intro e _
    by_cases hp : k ++ [n] <+: e.1 ∧ e.1 ≠ k ++ [n]
    · have h1 : k <+: e.1 := (List.prefix_append k [n]).trans hp.1
      have h2 : e.1 ≠ k := by
        intro e2
        rw [e2] at hp
        have := hp.1.length_le
        simp at this
      simp [hp, h1, h2]
    · simp [hp]
  rw [hsub, List.length_filter_lt_length_iff_exists]
  refine ⟨(k ++ [n], nd), ?_, by simp⟩
  unfold below
  rw [List.mem_filter]
  exact ⟨hmem, by simp⟩

theorem foldl_congr_mem {α β : Type} (f g : β → α → β) (l : List α) (b : β)
    (h : ∀ x ∈ l, ∀ acc, f acc x = g acc x) : l.foldl f b = l.foldl g b := by
  induction l generalizing b with
  | nil => rfl
  | cons x xs ih =>
    rw [List.foldl_cons, List.foldl_cons, h x (List.mem_cons_self _ _) b,
      ih _ (fun y hy => h y (List.mem_cons_of_mem _ hy))]

/-- With more fuel than there are entries below the path, the result of the
walk does not depend on the fuel: the walk never runs out of it. -/
theorem walkFiles_fuel (fs : FS) (n m : Nat) (k : Path)
    (hn : (below fs k).length < n) (hm : (below fs k).length < m) :
    walkFiles fs n k = walkFiles fs m k := by
  induction n generalizing m k with
  | zero => exact absurd hn (Nat.not_lt_zero _)
  | succ n ih =>
    cases m with
    | zero => exact absurd hm (Nat.not_lt_zero _)
    | succ m =>
      unfold walkFiles
      cases fs.get k with
      | none => rfl
      | some nd =>
        cases nd with
        | file d => rfl
        | dir =>
          simp only []
          apply foldl_congr_mem
          intro name hname acc
          have hlt := below_child_lt fs k name hname
          rw [ih m (k ++ [name]) (by omega) (by omega)]

/-- The fuel that `calculateCommitHash` passes is enough. -/
theorem walkFiles_enough (fs : FS) (n : Nat) (k : Path) (hn : fs.length + 1 ≤ n) :
    walkFiles fs n k = walkFiles fs (fs.length + 1) k := by
  have hle : (below fs k).length ≤ fs.length := List.length_filter_le _ _
  exact walkFiles_fuel fs n (fs.length + 1) k (by omega) (by omega)

/-! ## What the commands leave alone -/

theorem resolve_logFile : resolve logFile = [str "vcs", str "log.txt"] := by decide

theorem resolve_configFile : resolve configFile = [str "vcs", str "config.txt"] := by decide

theorem resolve_indexFile : resolve indexFile = [str "vcs", str "index.txt"] := by decide

/-- The copy loop of `handleCommit` writes only inside the commit directory. -/
theorem commitFiles_get_outside (id : Bytes) (files : List Bytes) (fs : FS) (q : Path)
    (h : validName id = true) (hq1 : q ≠ [str "vcs", str "commits"])
    (hq2 : q ≠ [str "vcs", str "commits", id]) (hq3 : ∀ b, q ≠ [str "vcs", str "commits", id, b]) :
    (commitFiles (Join commitsDir id) files fs).1.get q = fs.get q := by
  apply commitFiles_get
  intro f _
  rcases commit_dst_cases id f h with hc | hc | ⟨b, _, _, hc⟩
  · rw [hc]; exact hq1
  · rw [hc]; exact hq2
  · rw [hc]; exact hq3 b

/-- A commit that does not succeed leaves the history file as it is. -/
theorem handleCommit_log_of_failure (args : List Bytes) (fs : FS)
    (h : (handleCommit args fs).2 ≠ str "Changes are committed.\n") :
    ReadFile (handleCommit args fs).1 logFile = ReadFile fs logFile := by
  cases args with
  | nil => rfl
  | cons message rest =>
    have hcf : ∀ newHash fs1 files, calculateFilesHash fs = some newHash →
        ReadFile (commitFiles (Join commitsDir (newHash.take 6)) files fs1).1 logFile
          = ReadFile fs1 logFile := by
      intro newHash fs1 files hh
      apply ReadFile_congr
      rw [resolve_logFile]
      apply commitFiles_get_outside _ _ _ _ (newHash_take_valid fs newHash hh)
      · decide
      · exact fun e => absurd (congrArg List.length e) (by simp)
      · exact fun b e => absurd (congrArg List.length e) (by simp)
    rcases handleCommit_shape message rest fs with ⟨h1, _⟩ | ⟨newHash, fs1, hh, hm, _, h1 | ⟨files, h1⟩⟩ |
        ⟨author, newHash, fs1, files, fs3, _, _, hh, _, hm, _, _, hap, h1⟩
    · rw [h1]
    · rw [h1, MkdirAll_ReadFile fs fs1 _ _ hm]
    · rw [h1, hcf newHash fs1 files hh, MkdirAll_ReadFile fs fs1 _ _ hm]
    · rw [h1] at h; exact absurd rfl h

/-- A successful commit appends its block to the history file. -/
theorem handleCommit_log_of_success (message : Bytes) (rest : List Bytes) (fs : FS)
    (h : (handleCommit (message :: rest) fs).2 = str "Changes are committed.\n") :
    ∃ author newHash, ReadFile fs configFile = some author ∧ author ≠ [] ∧
      calculateFilesHash fs = some newHash ∧
      ReadFile (handleCommit (message :: rest) fs).1 logFile =
        some ((ReadFile fs logFile).getD [] ++ (str "commit " ++ newHash.take 6 ++ str "\nAuthor: "
          ++ author ++ str "\n" ++ message ++ str "\n\n")) := by
  rcases handleCommit_shape message rest fs with ⟨_, h1⟩ | ⟨_, _, _, _, h1, _⟩ |
      ⟨author, newHash, fs1, files, fs3, hcfg, hau, hh, _, hm, _, _, hap, h1⟩
  · exact absurd h h1
  · exact absurd h h1
  · refine ⟨author, newHash, hcfg, hau, hh, ?_⟩
    rw [h1]
    simp only []
    rw [appendToFile_ReadFile _ _ _ _ hap]
    have : ReadFile (commitFiles (Join commitsDir (newHash.take 6)) files fs1).1 logFile
        = ReadFile fs logFile := by
      rw [← MkdirAll_ReadFile fs fs1 _ logFile hm]
      apply ReadFile_congr
      rw [resolve_logFile]
      apply commitFiles_get_outside _ _ _ _ (newHash_take_valid fs newHash hh)
      · decide
      · exact fun e => absurd (congrArg List.length e) (by simp)
      · exact fun b e => absurd (congrArg List.length e) (by simp)
    rw [this]

theorem WriteFile_get_ne (fs fs1 : FS) (p data : Bytes) (h : WriteFile fs p data = some fs1)
    (q : Path) (hq : q ≠ resolve p) : fs1.get q = fs.get q := by
  unfold WriteFile at h
  split at h
  · simp only [Option.some.injEq] at h
    rw [← h, get_set_ne _ _ _ _ hq]
  · exact absurd h (by simp)

/-- The command `config` writes the config file only. -/
theorem handleConfig_get (args : List Bytes) (fs : FS) (q : Path)
    (hq : q ≠ [str "vcs", str "config.txt"]) : (handleConfig args fs).1.get q = fs.get q := by
  unfold handleConfig
  cases args with
  | nil =>
    simp only []
    cases ReadFile fs configFile with
    | none => rfl
    | some content =>
      simp only []
      split <;> rfl
  | cons username rest =>
    simp only []
    cases hw : WriteFile fs configFile username with
    | none => rfl
    | some fs1 => exact WriteFile_get_ne fs fs1 _ _ hw q (by rw [resolve_configFile]; exact hq)

/-- The command `add` writes the index file only. -/
theorem handleAdd_get (args : List Bytes) (fs : FS) (q : Path)
    (hq : q ≠ [str "vcs", str "index.txt"]) : (handleAdd args fs).1.get q = fs.get q := by
  unfold handleAdd
  cases args with
  | nil =>
    simp only []
    cases ReadFile fs indexFile with
    | none => rfl
    | some content =>
      simp only []
      split <;> rfl
  | cons fileName rest =>
    simp only []
    split
    · rfl
    · cases ha : appendToFile fs indexFile (fileName ++ str "\n") with
      | none => rfl
      | some fs1 => exact appendToFile_get_ne fs fs1 _ _ ha q (by rw [resolve_indexFile]; exact hq)

/-- The command `log` writes nothing. -/
theorem handleLog_fs (fs : FS) : (handleLog fs).1 = fs := by
  unfold handleLog
  split
  · rfl
  · cases ReadFile fs logFile with
    | none => rfl
    | some content =>
      simp only []
      split <;> rfl

/-- The command `checkout` writes only entries of the current directory that
carry the name of an entry of the directory it reads. -/
theorem handleCheckout_get (args : List Bytes) (fs : FS) (q : Path)
    (hq : ∀ commitID rest files, args = commitID :: rest →
      ReadDir fs (Join commitsDir commitID) = some files → ∀ e ∈ files, q ≠ [e.1]) :
    (handleCheckout args fs).1.get q = fs.get q := by
  unfold handleCheckout
  cases args with
  | nil => rfl
  | cons commitID rest =>
    simp only []
    split
    · rfl
    · cases hr : ReadDir fs (Join commitsDir commitID) with
      | none => rfl
      | some files =>
        simp only []
        have := restoreFiles_get_outside fs (Join commitsDir commitID) files
          (fun e he => (ReadDir_mem fs _ files hr e he).1) q (hq commitID rest files rfl hr)
        cases hres : restoreFiles (Join commitsDir commitID) files fs with
        | mk fs1 res =>
          rw [hres] at this
          cases res <;> exact this

theorem handleCheckout_get_of_length (args : List Bytes) (fs : FS) (q : Path) (hq : q.length ≠ 1) :
    (handleCheckout args fs).1.get q = fs.get q := by
  apply handleCheckout_get
  intro _ _ _ _ _ e _ h
  rw [h] at hq
  exact hq rfl

theorem touch_get (fs fs1 : FS) (p : Bytes) (h : touch fs p = some fs1) (q : Path)
    (hq : fs.get q ≠ none ∨ q ≠ resolve p) : fs1.get q = fs.get q := by
  unfold touch at h
  split at h
  · cases hg : fs.get (resolve p) with
    | none =>
      rw [hg] at h
      simp only [Option.some.injEq] at h
      have hne : q ≠ resolve p := by
        rcases hq with h1 | h1
        · intro e; rw [e] at h1; exact h1 hg
        · exact h1
      rw [← h, get_set_ne _ _ _ _ hne]
    | some nd =>
      rw [hg] at h
      simp only [Option.some.injEq] at h
      rw [h]
  · exact absurd h (by simp)

theorem ensureFiles_get (files : List Bytes) (fs : FS) (q : Path)
    (hq : fs.get q ≠ none ∨ ∀ f ∈ files, q ≠ resolve f) :
    (ensureFiles files fs).1.get q = fs.get q := by
  induction files generalizing fs with
  | nil => rfl
  | cons f rest ih =>
    unfold ensureFiles
    have hrest : ∀ s : FS, s.get q = fs.get q → (ensureFiles rest s).1.get q = fs.get q := by
      intro s hs
      rw [ih s, hs]
      rcases hq with h1 | h1
      · left; rw [hs]; exact h1
      · right; exact fun g hg => h1 g (List.mem_cons_of_mem _ hg)
    cases ht : touch fs f with
    | none => exact hrest fs rfl
    | some fs1 =>
      apply hrest fs1
      apply touch_get fs fs1 f ht q
      rcases hq with h1 | h1
      · left; exact h1
      · right; exact h1 f (List.mem_cons_self _ _)

/-- The function `ensureVcsDir` leaves every existing node as it is. -/
theorem ensureVcsDir_get (fs : FS) (q : Path) (hq : fs.get q ≠ none) :
    (ensureVcsDir fs).1.get q = fs.get q := by
  unfold ensureVcsDir
  cases hm : MkdirAll fs commitsDir with
  | none => rfl
  | some fs1 =>
    simp only []
    have h1 := MkdirAll_get_of_ne_none fs fs1 _ hm q hq
    rw [ensureFiles_get _ fs1 q (Or.inl (by rw [h1]; exact hq)), h1]

theorem ReadFile_ne_none_get (fs : FS) (p d : Bytes) (h : ReadFile fs p = some d) :
    fs.get (resolve p) ≠ none := by
  rw [((ReadFile_eq_some fs p d).1 h).2]
  simp

/-! ## The restore loop -/

/-- When every listed entry is a regular file of the commit directory and no
entry of the working area with such a name is a directory, the restore loop
of `handleCheckout` succeeds and leaves under each name the stored bytes. -/
theorem restoreFiles_ok (id : Bytes) (hid : validName id = true) (files : List (Bytes × Bool)) (fs : FS)
    (hv : ∀ e ∈ files, validName e.1 = true)
    (hsrc : ∀ e ∈ files, ∃ d, fs.get [str "vcs", str "commits", id, e.1] = some (Node.file d))
    (hdst : ∀ e ∈ files, fs.get [e.1] ≠ some Node.dir) :
    (restoreFiles (Join commitsDir id) files fs).2 = none ∧
    ∀ e ∈ files, (restoreFiles (Join commitsDir id) files fs).1.get [e.1]
      = fs.get [str "vcs", str "commits", id, e.1] := by
  induction files generalizing fs with
  | nil => exact ⟨rfl, fun e he => absurd he (List.not_mem_nil _)⟩
  | cons f rest ih =>
    have hfv := hv f (List.mem_cons_self _ _)
    obtain ⟨d, hd⟩ := hsrc f (List.mem_cons_self _ _)
    have hrs := resolve_Join_commit_file id f.1 hid hfv
    have hrd := resolve_valid f.1 hfv
    have hne : resolve (Join (Join commitsDir id) f.1) ≠ resolve f.1 := by
      rw [hrs, hrd]; exact fun e => absurd (congrArg List.length e) (by simp)
    have hread : ReadFile fs (Join (Join commitsDir id) f.1) = some d := by
      rw [ReadFile_eq_some, hrs]
      exact ⟨Join_commit_file_ne_nil id f.1 hid hfv, hd⟩
    have hcan : canCreate fs f.1 = true := by
      rw [canCreate_iff, hrd]
      refine ⟨((validName_iff _).1 hfv).1, hdst f (List.mem_cons_self _ _), ?_⟩
      simp [FS.get]
    have hok := copyFile_succeeds fs _ f.1 d hread hcan hne
    obtain ⟨d2, hd2, hget⟩ := copyFile_ok fs _ f.1 hok hne
    rw [hread] at hd2
    simp only [Option.some.injEq] at hd2
    subst hd2
    rw [hrd] at hget
    have hframe : ∀ q, q ≠ [f.1] →
        (copyFile fs (Join (Join commitsDir id) f.1) f.1).1.get q = fs.get q := by
      intro q hq
      exact copyFile_get_ne fs _ f.1 q (by rw [hrd]; exact hq)
    unfold restoreFiles
    cases hc : copyFile fs (Join (Join commitsDir id) f.1) f.1 with
    | mk fs1 ok =>
      rw [hc] at hok hget hframe
      simp only [] at hok hget hframe
      subst hok
      simp only []
      have hsrc1 : ∀ e ∈ rest, ∃ d, fs1.get [str "vcs", str "commits", id, e.1] = some (Node.file d) := by
        intro e he
        rw [hframe _ (fun c => absurd (congrArg List.length c) (by simp))]
        exact hsrc e (List.mem_cons_of_mem _ he)
      have hdst1 : ∀ e ∈ rest, fs1.get [e.1] ≠ some Node.dir := by
        intro e he
        by_cases hef : e.1 = f.1
        · rw [hef, hget]; simp
        · rw [hframe _ (fun c => hef (by simpa using c))]
          exact hdst e (List.mem_cons_of_mem _ he)
      obtain ⟨ih1, ih2⟩ := ih fs1 (fun e he => hv e (List.mem_cons_of_mem _ he)) hsrc1 hdst1
      refine ⟨ih1, ?_⟩
      intro e he
      rcases List.mem_cons.1 he with rfl | he
      · by_cases hin : ∃ g ∈ rest, g.1 = e.1
        · obtain ⟨g, hg, hge⟩ := hin
          have := ih2 g hg
          rw [hge] at this
          rw [this, hframe _ (fun c => absurd (congrArg List.length c) (by simp))]
        · push_neg at hin
          rw [restoreFiles_get_outside fs1 _ rest (fun g hg => hv g (List.mem_cons_of_mem _ hg)) [e.1]
            (fun g hg c => hin g hg (by simpa using c.symm)), hget, hd]
      · rw [ih2 e he, hframe _ (fun c => absurd (congrArg List.length c) (by simp))]

/-- A restore loop that succeeded found every listed entry to be a regular
file of the commit directory, and no directory in its way. -/
theorem restoreFiles_success_inv (id : Bytes) (hid : validName id = true) (files : List (Bytes × Bool))
    (fs : FS) (hv : ∀ e ∈ files, validName e.1 = true)
    (hs : (restoreFiles (Join commitsDir id) files fs).2 = none) :
    (∀ e ∈ files, ∃ d, fs.get [str "vcs", str "commits", id, e.1] = some (Node.file d)) ∧
    (∀ e ∈ files, fs.get [e.1] ≠ some Node.dir) := by
  induction files generalizing fs with
  | nil => exact ⟨fun e he => absurd he (List.not_mem_nil _), fun e he => absurd he (List.not_mem_nil _)⟩
  | cons f rest ih =>
    have hfv := hv f (List.mem_cons_self _ _)
    have hrs := resolve_Join_commit_file id f.1 hid hfv
    have hrd := resolve_valid f.1 hfv
    have hne : resolve (Join (Join commitsDir id) f.1) ≠ resolve f.1 := by
      rw [hrs, hrd]; exact fun e => absurd (congrArg List.length e) (by simp)
    have hframe : ∀ q, q ≠ [f.1] →
        (copyFile fs (Join (Join commitsDir id) f.1) f.1).1.get q = fs.get q := by
      intro q hq
      exact copyFile_get_ne fs _ f.1 q (by rw [hrd]; exact hq)
    have hdirs := copyFile_dir fs (Join (Join commitsDir id) f.1) f.1
    have hokd := copyFile_ok fs (Join (Join commitsDir id) f.1) f.1
    unfold restoreFiles at hs
    cases hc : copyFile fs (Join (Join commitsDir id) f.1) f.1 with
    | mk fs1 ok =>
      rw [hc] at hs hframe hdirs hokd
      cases ok with
      | false => simp at hs
      | true =>
        simp only [] at hs hframe hdirs hokd
        obtain ⟨d, hd, hget⟩ := hokd trivial hne
        rw [ReadFile_eq_some, hrs] at hd
        rw [hrd] at hget
        obtain ⟨ih1, ih2⟩ := ih fs1 (fun e he => hv e (List.mem_cons_of_mem _ he)) hs
        constructor
        · intro e he
          rcases List.mem_cons.1 he with rfl | he
          · exact ⟨d, hd.2⟩
          · obtain ⟨d1, hd1⟩ := ih1 e he
            rw [hframe _ (fun c => absurd (congrArg List.length c) (by simp))] at hd1
            exact ⟨d1, hd1⟩
        · intro e he hdir
          have := hdirs [e.1] hdir
          rcases List.mem_cons.1 he with rfl | he
          · rw [hget] at this; simp at this
          · exact ih2 e he this

/-- A copy loop of `handleCommit` over plain file names that succeeded stored
under each name the bytes the file had. -/
theorem commitFiles_of_success (id : Bytes) (hid : validName id = true) (files : List Bytes) (fs : FS)
    (hv : ∀ p ∈ files, validName p = true)
    (hs : (commitFiles (Join commitsDir id) files fs).2 = none) :
    ∀ p ∈ files, ∃ d, ReadFile fs p = some d ∧
      (commitFiles (Join commitsDir id) files fs).1.get [str "vcs", str "commits", id, p]
        = some (Node.file d) := by
  induction files generalizing fs with
  | nil => exact fun p hp => absurd hp (List.not_mem_nil _)
  | cons f rest ih =>
    have hfv := hv f (List.mem_cons_self _ _)
    have hrs : resolve (Join (Join commitsDir id) (Base f)) = [str "vcs", str "commits", id, f] := by
      rw [Base_valid f hfv]; exact resolve_Join_commit_file id f hid hfv
    have hrd := resolve_valid f hfv
    have hne : resolve f ≠ resolve (Join (Join commitsDir id) (Base f)) := by
      rw [hrs, hrd]; exact fun e => absurd (congrArg List.length e) (by simp)
    have hframe : ∀ q, q ≠ [str "vcs", str "commits", id, f] →
        (copyFile fs f (Join (Join commitsDir id) (Base f))).1.get q = fs.get q := by
      intro q hq
      exact copyFile_get_ne fs f _ q (by rw [hrs]; exact hq)
    have hokd := copyFile_ok fs f (Join (Join commitsDir id) (Base f))
    unfold commitFiles at hs ⊢
    cases hc : copyFile fs f (Join (Join commitsDir id) (Base f)) with
    | mk fs1 ok =>
      rw [hc] at hs hframe hokd
      cases ok with
      | false => simp at hs
      | true =>
        simp only [] at hs hframe hokd ⊢
        obtain ⟨d, hd, hget⟩ := hokd trivial hne
        rw [hrs] at hget
        have hrest := ih fs1 (fun p hp => hv p (List.mem_cons_of_mem _ hp)) hs
        have hreadsame : ∀ p, validName p = true → ReadFile fs1 p = ReadFile fs p := by
          intro p hp
          apply ReadFile_congr
          rw [resolve_valid p hp]
          exact hframe _ (fun c => absurd (congrArg List.length c) (by simp))
        intro p hp
        rcases List.mem_cons.1 hp with rfl | hp
        · by_cases hin : p ∈ rest
          · obtain ⟨d1, hd1, hg1⟩ := hrest p hin
            rw [hreadsame p hfv, hd] at hd1
            simp only [Option.some.injEq] at hd1
            subst hd1
            exact ⟨d, hd, hg1⟩
          · refine ⟨d, hd, ?_⟩
            rw [commitFiles_get _ rest fs1, hget]
            intro g hg
            have hgv := hv g (List.mem_cons_of_mem _ hg)
            rw [Base_valid g hgv, resolve_Join_commit_file id g hid hgv]
            intro c
            have : p = g := by simpa using c
            exact hin (this ▸ hg)
        · obtain ⟨d1, hd1, hg1⟩ := hrest p hp
          rw [hreadsame p (hv p (List.mem_cons_of_mem _ hp))] at hd1
          exact ⟨d1, hd1, hg1⟩

theorem readAll_congr (fs fs2 : FS) (files : List Bytes)
    (h : ∀ p ∈ files, ReadFile fs2 p = ReadFile fs p) : readAll fs2 files = readAll fs files := by
  induction files with
  | nil => rfl
  | cons f rest ih =>
    unfold readAll
    rw [h f (List.mem_cons_self _ _), ih (fun p hp => h p (List.mem_cons_of_mem _ hp))]

theorem getTrackedFiles_congr (fs fs2 : FS) (h : ReadFile fs2 indexFile = ReadFile fs indexFile) :
    getTrackedFiles fs2 = getTrackedFiles fs := by
  unfold getTrackedFiles
  rw [h]

theorem checkout_msg_ne (commitID dst : Bytes) :
    str "Commit does not exist.\n" ≠ str "Switched to commit " ++ commitID ++ str ".\n" ∧
    str "Error: Could not read commit directory.\n" ≠ str "Switched to commit " ++ commitID ++ str ".\n" ∧
    str "Error: Could not restore '" ++ dst ++ str "'.\n"
      ≠ str "Switched to commit " ++ commitID ++ str ".\n" := by
  have hr : (str "Switched to commit " ++ commitID ++ str ".\n").head? = some 83 := by
    rw [List.append_assoc, head_append_ne _ _ (by decide)]; decide
  refine ⟨?_, ?_, ?_⟩
  · intro h
    have := congrArg List.head? h
    rw [hr] at this
    exact absurd this (by decide)
  · intro h
    have := congrArg List.head? h
    rw [hr] at this
    exact absurd this (by decide)
  · intro h
    have := congrArg List.head? h
    rw [hr, List.append_assoc, head_append_ne _ _ (by decide)] at this
    exact absurd this (by decide)

/-- A checkout that reports success has read the directory and restored every
entry. -/
theorem handleCheckout_success (commitID : Bytes) (rest : List Bytes) (fs : FS)
    (h : (handleCheckout (commitID :: rest) fs).2 = str "Switched to commit " ++ commitID ++ str ".\n") :
    ∃ files, ReadDir fs (Join commitsDir commitID) = some files ∧
      (restoreFiles (Join commitsDir commitID) files fs).2 = none ∧
      (handleCheckout (commitID :: rest) fs).1 = (restoreFiles (Join commitsDir commitID) files fs).1 := by
  unfold handleCheckout at h ⊢
  simp only [] at h ⊢
  split at h
  · exact absurd h (checkout_msg_ne commitID []).1
  · rename_i hst
    rw [if_neg hst]
    cases hr : ReadDir fs (Join commitsDir commitID) with
    | none => rw [hr] at h; exact absurd h (checkout_msg_ne commitID []).2.1
    | some files =>
      rw [hr] at h
      simp only [] at h ⊢
      cases hres : restoreFiles (Join commitsDir commitID) files fs with
      | mk fs1 res =>
        rw [hres] at h
        cases res with
        | some dst => exact absurd h (checkout_msg_ne commitID dst).2.2
        | none => exact ⟨files, rfl, by rw [hres], by rw [hres]⟩

/-! ## Lemmas on `TrimSpace` and on splitting at blank lines -/

theorem trimLeftAux_none (rs : List Bytes) (s : Bytes) (h : ∀ r ∈ rs, ¬ r <+: s) :
    trimLeftAux rs 0 s = s := by
  cases s with
  | nil => rfl
  | cons c cs =>
    unfold trimLeftAux
    have : rs.find? (fun r => r.isPrefixOf (c :: cs)) = none := by
      rw [List.find?_eq_none]
      intro r hr hp
      exact h r hr (List.isPrefixOf_iff_prefix.1 hp)
    rw [this]

theorem trimLeftAux_one (rs : List Bytes) (c : UInt8) (s : Bytes) (h : ∃ r ∈ rs, r <+: c :: s)
    (hlen : ∀ r ∈ rs, r <+: c :: s → r.length = 1) :
    trimLeftAux rs 0 (c :: s) = trimLeftAux rs 0 s := by
  unfold trimLeftAux
  cases hf : rs.find? (fun r => r.isPrefixOf (c :: s)) with
  | none =>
    obtain ⟨r, hr, hp⟩ := h
    rw [List.find?_eq_none] at hf
    exact absurd (List.isPrefixOf_iff_prefix.2 hp) (hf r hr)
  | some r =>
    have hp := List.isPrefixOf_iff_prefix.1
      (List.find?_some (p := fun (r : Bytes) => r.isPrefixOf (c :: s)) hf)
    have := hlen r (List.mem_of_find?_eq_some hf) hp
    simp only [this]
    cases s <;> rfl

theorem head_of_prefix_cons (r : Bytes) (c : UInt8) (s : Bytes) (h : r <+: c :: s) (hr : r ≠ []) :
    r.head? = some c := by
  cases r with
  | nil => exact absurd rfl hr
  | cons x xs =>
    obtain ⟨t, ht⟩ := h
    simp only [List.cons_append, List.cons.injEq] at ht
    simp [ht.1]

/-- A text that starts with the letter `c`, followed by a blank line, is
trimmed to the text when it does not end in white space. -/
theorem TrimSpace_blank (t : Bytes) (h : ∀ r ∈ spaceRunes, ¬ r <:+ (99 :: t)) :
    TrimSpace (99 :: t ++ [10, 10]) = 99 :: t := by
  unfold TrimSpace
  have hl : trimLeftAux spaceRunes 0 (99 :: t ++ [10, 10]) = 99 :: t ++ [10, 10] := by
    apply trimLeftAux_none
    intro r hr hp
    have h1 : ∀ r ∈ spaceRunes, r ≠ [] ∧ r.head? ≠ some 99 := by decide
    exact (h1 r hr).2 (head_of_prefix_cons r 99 _ hp (h1 r hr).1)
  rw [hl]
  have hrev : (99 :: t ++ [10, 10]).reverse = 10 :: 10 :: (99 :: t).reverse := by simp
  rw [hrev]
  have hone : ∀ u : Bytes, trimLeftAux (spaceRunes.map List.reverse) 0 (10 :: u)
      = trimLeftAux (spaceRunes.map List.reverse) 0 u := by
    intro u
    apply trimLeftAux_one
    · exact ⟨[10], by decide, ⟨u, rfl⟩⟩
    · intro r hr hp
      have h1 : ∀ r ∈ spaceRunes.map List.reverse, r ≠ [] ∧ (r.head? = some 10 → r.length = 1) := by
        decide
      exact (h1 r hr).2 (head_of_prefix_cons r 10 _ hp (h1 r hr).1)
  rw [hone, hone, trimLeftAux_none]
  · simp
  · intro r hr hp
    rw [List.mem_map] at hr
    obtain ⟨r0, hr0, rfl⟩ := hr
    exact h r0 hr0 (List.reverse_prefix.1 hp)

theorem splitnn_cons (c : UInt8) (cs : Bytes) (h : ¬ [10, 10] <+: c :: cs) :
    Split (c :: cs) [10, 10] = consHead c (Split cs [10, 10]) := by
  unfold Split
  rw [splitAux]
  rw [if_neg]
  intro hp
  exact h (List.isPrefixOf_iff_prefix.1 hp)

theorem splitnn_sep (rest : Bytes) : Split (10 :: 10 :: rest) [10, 10] = [] :: Split rest [10, 10] := by
  unfold Split
  rw [splitAux, if_pos (by simp [List.isPrefixOf])]
  rfl

/-- A piece without a blank line that does not end in a line feed is cut off
at the blank line that follows it. -/
theorem splitnn_block (b rest : Bytes) (h1 : ¬ [10, 10] <:+: b) (h2 : b.getLast? ≠ some 10) :
    Split (b ++ 10 :: 10 :: rest) [10, 10] = b :: Split rest [10, 10] := by
  induction b with
  | nil => exact splitnn_sep rest
  | cons c b ih =>
    have hin : ¬ [10, 10] <:+: b := fun hi => h1 (hi.trans (List.suffix_cons c b).isInfix)
    have hl : b.getLast? ≠ some 10 := by
      cases b with
      | nil => simp
      | cons d ds => rwa [List.getLast?_cons_cons] at h2
    have hp : ¬ [10, 10] <+: c :: b ++ 10 :: 10 :: rest := by
      rintro ⟨t, ht⟩
      cases b with
      | nil =>
        simp only [List.cons_append, List.nil_append, List.cons.injEq] at ht
        exact h2 (by simp [ht.1])
      | cons d ds =>
        simp only [List.cons_append, List.cons.injEq] at ht
        exact h1 ⟨[], ds, by simp [← ht.1, ← ht.2.1]⟩
    rw [List.cons_append] at hp ⊢
    rw [splitnn_cons c _ hp, ih hin hl]
    rfl

theorem splitnn_single (b : Bytes) (h1 : ¬ [10, 10] <:+: b) : Split b [10, 10] = [b] := by
  induction b with
  | nil => rfl
  | cons c b ih =>
    have hin : ¬ [10, 10] <:+: b := fun hi => h1 (hi.trans (List.suffix_cons c b).isInfix)
    have hp : ¬ [10, 10] <+: c :: b := fun hp => h1 hp.isInfix
    rw [splitnn_cons c _ hp, ih hin]
    rfl

/-- Blocks without a blank line that do not end in a line feed, written with
blank lines between them, are split into the blocks again. -/
theorem split_blocks (b : Bytes) (bs : List Bytes)
    (h : ∀ x ∈ b :: bs, ¬ [10, 10] <:+: x ∧ x.getLast? ≠ some 10) :
    Split (List.intercalate [10, 10] (b :: bs)) [10, 10] = b :: bs := by
  induction bs generalizing b with
  | nil =>
    rw [intercalate_singleton]
    exact splitnn_single b (h b (List.mem_cons_self _ _)).1
  | cons d ds ih =>
    obtain ⟨h1, h2⟩ := h b (List.mem_cons_self _ _)
    rw [intercalate_cons_cons, List.append_assoc]
    have : [10, 10] ++ List.intercalate [10, 10] (d :: ds)
        = 10 :: 10 :: List.intercalate [10, 10] (d :: ds) := rfl
    rw [this, splitnn_block b _ h1 h2, ih d (fun x hx => h x (List.mem_cons_of_mem _ hx))]

/-- The history file after the blocks were appended is the blocks separated
by blank lines, and one more blank line. -/
theorem flatten_blocks (b : Bytes) (bs : List Bytes) :
    ((b :: bs).map fun x => x ++ [10, 10]).flatten = List.intercalate [10, 10] (b :: bs) ++ [10, 10] := by
  induction bs generalizing b with
  | nil => simp [intercalate_singleton]
  | cons d ds ih =>
    rw [intercalate_cons_cons, List.map_cons, List.flatten_cons, ih d]
    simp

theorem intercalate_suffix (sep b : Bytes) (bs : List Bytes) :
    ∃ l, (b :: bs).getLast? = some l ∧ l <:+ List.intercalate sep (b :: bs) := by
  induction bs generalizing b with
  | nil => exact ⟨b, rfl, by rw [intercalate_singleton]⟩
  | cons d ds ih =>
    obtain ⟨l, hl, hs⟩ := ih d
    refine ⟨l, by rw [List.getLast?_cons_cons]; exact hl, ?_⟩
    rw [intercalate_cons_cons]
    exact hs.trans (List.suffix_append _ _)

theorem spaceRunes_short : ∀ r ∈ spaceRunes, r.length ≤ 3 := by decide

theorem logBlock_eq (commitID author message : Bytes) :
    ∃ t, logBlock commitID author message = 99 :: t ∧ 3 ≤ (99 :: t).length := by
  refine ⟨str "ommit " ++ commitID ++ str "\nAuthor: " ++ author ++ str "\n" ++ message, rfl, ?_⟩
  have : (str "ommit ").length = 6 := by decide
  simp only [List.length_cons, List.length_append, this]
  omega

/-- In a run of commits the history file holds the blocks, each followed by a
blank line, and every block starts with the word `commit`. -/
theorem CommitRun_log (fs : FS) (blocks : List Bytes) (h : CommitRun fs blocks) :
    ReadFile fs logFile = some (blocks.map fun x => x ++ [10, 10]).flatten ∧
    ∀ b ∈ blocks, ∃ t, b = 99 :: t ∧ 3 ≤ (99 :: t).length := by
  induction h with
  | start fs h0 => exact ⟨h0, fun b hb => absurd hb (List.not_mem_nil _)⟩
  | commit fs blocks message rest author newHash _ hcfg hhash hs ih =>
    obtain ⟨author2, newHash2, hcfg2, _, hhash2, hr⟩ := handleCommit_log_of_success message rest fs hs
    rw [hcfg] at hcfg2
    rw [hhash] at hhash2
    simp only [Option.some.injEq] at hcfg2 hhash2
    subst hcfg2 hhash2
    constructor
    · rw [hr, ih.1]
      simp [logBlock, str_nlnl]
    · intro b hb
      rcases List.mem_append.1 hb with hb | hb
      · exact ih.2 b hb
      · rw [List.mem_singleton.1 hb]
        exact logBlock_eq _ _ _
  | other fs fs2 blocks _ hsame ih => exact ⟨by rw [hsame]; exact ih.1, ih.2⟩

/-! ## The history file -/

/-- C9: the history file is append-only with a fixed block layout. With `h` the
content of the history file: a successful `commit` with message `m`, author `a`
and id `c` (the first six characters of the fingerprint) turns it into
`h ++ "commit c\nAuthor: a\nm\n\n"`; a commit with any other outcome,
`config`, `add`, `log`, `checkout` and the set-up step that precedes every
command leave it as it is. -/
theorem history_append_only (fs : FS) (h : Bytes) (hlog : ReadFile fs logFile = some h) :
    (∀ message rest, (handleCommit (message :: rest) fs).2 = str "Changes are committed.\n" →
      ∃ author newHash, ReadFile fs configFile = some author ∧ calculateFilesHash fs = some newHash ∧
        ReadFile (handleCommit (message :: rest) fs).1 logFile =
          some (h ++ (str "commit " ++ newHash.take 6 ++ str "\nAuthor: " ++ author ++ str "\n"
            ++ message ++ str "\n\n"))) ∧
    (∀ args, (handleCommit args fs).2 ≠ str "Changes are committed.\n" →
      ReadFile (handleCommit args fs).1 logFile = some h) ∧
    (∀ args, ReadFile (handleConfig args fs).1 logFile = some h) ∧
    (∀ args, ReadFile (handleAdd args fs).1 logFile = some h) ∧
    ReadFile (handleLog fs).1 logFile = some h ∧
    (∀ args, ReadFile (handleCheckout args fs).1 logFile = some h) ∧
    ReadFile (ensureVcsDir fs).1 logFile = some h := by
  refine ⟨?_, ?_, ?_, ?_, ?_, ?_, ?_⟩
  · intro message rest hs
    obtain ⟨author, newHash, hcfg, _, hh, hr⟩ := handleCommit_log_of_success message rest fs hs
    refine ⟨author, newHash, hcfg, hh, ?_⟩
    rw [hr, hlog]
    rfl
  · intro args hf
    rw [handleCommit_log_of_failure args fs hf, hlog]
  · intro args
    rw [← hlog]
    apply ReadFile_congr
    rw [resolve_logFile]
    exact handleConfig_get args fs _ (by decide)
  · intro args
    rw [← hlog]
    apply ReadFile_congr
    rw [resolve_logFile]
    exact handleAdd_get args fs _ (by decide)
  · rw [handleLog_fs, hlog]
  · intro args
    rw [← hlog]
    apply ReadFile_congr
    rw [resolve_logFile]
    exact handleCheckout_get_of_length args fs _ (by decide)
  · rw [← hlog]
    apply ReadFile_congr
    exact ensureVcsDir_get fs _ (ReadFile_ne_none_get fs logFile h hlog)

/-- C9, at the example state: the first commit of `bob` with message `init`
turns the empty history file into the one block of that commit. -/
theorem history_append_only_witness :
    ReadFile exampleFS logFile = some [] ∧
    ReadFile (handleCommit [str "init"] exampleFS).1 logFile =
      some (str "commit 936a18\nAuthor: bob\ninit\n\n") := by
  refine ⟨by decide!, ?_⟩
  obtain ⟨author, newHash, ha, hh, hr⟩ :=
    (history_append_only exampleFS [] (by decide!)).1 (str "init") [] (by decide!)
  have h1 : ReadFile exampleFS configFile = some (str "bob") := by decide!
  have h2 : calculateFilesHash exampleFS
      = some (str "936a185caaa266bb9cbe981e9e05cb78cd732b0b3280eb944412bb6f8f8f07af") := by decide!
  rw [h1] at ha
  rw [h2] at hh
  simp only [Option.some.injEq] at ha hh
  subst ha hh
  rw [hr]
  decide!

/-! ## Checkout of an unknown id -/

/-- The existence test of `handleCheckout` at some arguments: a name that no
entry of the commits directory carries is not found; a name of 256 bytes
(`ENAMETOOLONG`) and a path through the stored regular file `936a18/a`
(`ENOTDIR`) are not reported as not found, and reading the directory fails. -/
theorem checkout_existence_test :
    handleCheckout [str "zzzzzz"] exampleFS = (exampleFS, str "Commit does not exist.\n") ∧
    handleCheckout [List.replicate 256 97] exampleFS
      = (exampleFS, str "Error: Could not read commit directory.\n") ∧
    handleCheckout [str "936a18/a/x"] committedFS
      = (committedFS, str "Error: Could not read commit directory.\n") := by
  decide!

/-- C6 at failing inputs: in the initialised store without any commit, `..`,
the empty string and `../..` are not ids of a commit, but each passes the
existence test of `handleCheckout`. The command `checkout ..` reads the store
directory, creates an empty file `commits` in the working area and reports a
restore error; `checkout ""` reports success; `checkout ../..` reads the
working directory, copies `a` and `b` onto themselves, which empties them,
and reports a restore error at `vcs`. -/
theorem checkout_unknown_failing_input :
    (main [str "checkout", str ".."] exampleFS).2 = str "Error: Could not restore 'commits'.\n" ∧
    ReadFile exampleFS (str "commits") = none ∧
    ReadFile (main [str "checkout", str ".."] exampleFS).1 (str "commits") = some [] ∧
    (main [str "checkout", []] exampleFS).2 = str "Switched to commit .\n" ∧
    (main [str "checkout", str "../.."] exampleFS).2 = str "Error: Could not restore 'vcs'.\n" ∧
    ReadFile exampleFS (str "a") = some (str "hello") ∧
    ReadFile (main [str "checkout", str "../.."] exampleFS).1 (str "a") = some [] ∧
    ReadFile (main [str "checkout", str "../.."] exampleFS).1 (str "b") = some [] := by
  decide!

/-! ## Checkout -/

/-- C5, amended: for a valid id whose commit directory exists and lists only
regular files, and when no entry of the working area that carries the name of
a stored file is a directory, `checkout id` succeeds; afterwards every stored
name is a file of the working area with exactly the stored bytes, and every
other path, the whole store included, is as before. -/
theorem checkout_restores_and_frames (fs : FS) (id : Bytes) (rest : List Bytes)
    (files : List (Bytes × Bool)) (hid : validName id = true)
    (hread : ReadDir fs (Join commitsDir id) = some files)
    (hreg : ∀ e ∈ files, e.2 = false)
    (hwork : ∀ e ∈ files, fs.get [e.1] ≠ some Node.dir) :
    (handleCheckout (id :: rest) fs).2 = str "Switched to commit " ++ id ++ str ".\n" ∧
    (∀ e ∈ files, ∃ d, ReadFile fs (Join (Join commitsDir id) e.1) = some d ∧
      ReadFile (handleCheckout (id :: rest) fs).1 e.1 = some d) ∧
    (∀ q, (∀ e ∈ files, q ≠ [e.1]) → (handleCheckout (id :: rest) fs).1.get q = fs.get q) := by
  have hv : ∀ e ∈ files, validName e.1 = true := fun e he => (ReadDir_mem fs _ files hread e he).1
  have hP := resolve_Join_commitsDir id hid
  have hsrc : ∀ e ∈ files, ∃ d, fs.get [str "vcs", str "commits", id, e.1] = some (Node.file d) := by
    intro e he
    obtain ⟨_, ⟨nd, hnd⟩, hdir⟩ := ReadDir_mem fs _ files hread e he
    rw [hP] at hnd hdir
    simp only [List.cons_append, List.nil_append] at hnd hdir
    cases nd with
    | file d => exact ⟨d, hnd⟩
    | dir =>
      have := hdir.2 hnd
      rw [hreg e he] at this
      exact absurd this (by simp)
  obtain ⟨hok, hget⟩ := restoreFiles_ok id hid files fs hv hsrc hwork
  have hexists : statNotExist fs (Join commitsDir id) = false := by
    have hnode := (ReadDir_eq_some fs _ files hread).1
    unfold FS.node at hnode
    rw [if_neg (Join_commitsDir_ne_nil id hid)] at hnode
    unfold statNotExist
    simp [Join_commitsDir_ne_nil id hid, hnode]
  have hfs : handleCheckout (id :: rest) fs
      = ((restoreFiles (Join commitsDir id) files fs).1, str "Switched to commit " ++ id ++ str ".\n") := by
    unfold handleCheckout
    simp only [hexists, hread]
    cases hres : restoreFiles (Join commitsDir id) files fs with
    | mk fs1 res =>
      rw [hres] at hok
      simp only [] at hok
      subst hok
      simp
  rw [hfs]
  refine ⟨rfl, ?_, ?_⟩
  · intro e he
    obtain ⟨d, hd⟩ := hsrc e he
    refine ⟨d, ?_, ?_⟩
    · rw [ReadFile_eq_some, resolve_Join_commit_file id e.1 hid (hv e he)]
      exact ⟨Join_commit_file_ne_nil id e.1 hid (hv e he), hd⟩
    · rw [ReadFile_eq_some, resolve_valid e.1 (hv e he)]
      refine ⟨((validName_iff _).1 (hv e he)).1, ?_⟩
      simp only []
      rw [hget e he, hd]
  · intro q hq
    exact restoreFiles_get_outside fs _ files hv q hq

/-- C5 as stated fails: with the tracked file `d/d`, `commit` stores its bytes
under the name `d`; the commit directory `2cf24d` then holds one regular
file, but `checkout 2cf24d` cannot write the file `d` because the working
area has a directory of that name, so the stored name is no working-area file
afterwards. -/
theorem checkout_restores_counterexample :
    ReadDir (main [str "commit", str "init"] nestedFS).1 (Join commitsDir (str "2cf24d"))
      = some [(str "d", false)] ∧
    (main [str "checkout", str "2cf24d"] (main [str "commit", str "init"] nestedFS).1).2
      = str "Error: Could not restore 'd'.\n" ∧
    ReadFile (main [str "checkout", str "2cf24d"] (main [str "commit", str "init"] nestedFS).1).1
      (str "d") = none := by
  decide!

/-- C5, amended, at the example state after a commit and an edit of `a`:
`checkout 936a18` succeeds and `a` holds the stored bytes again. -/
theorem checkout_restores_and_frames_witness :
    (handleCheckout [str "936a18"] committedFS).2 = str "Switched to commit 936a18.\n" ∧
    ∃ d, ReadFile committedFS (Join (Join commitsDir (str "936a18")) (str "a")) = some d ∧
      ReadFile (handleCheckout [str "936a18"] committedFS).1 (str "a") = some d :=
  have h := checkout_restores_and_frames committedFS (str "936a18") []
    [(str "a", false), (str "b", false)] (by decide) (by decide!) (by decide) (by decide!)
  ⟨h.1, h.2.1 (str "a", false) (by decide)⟩

/-- C4, amended: let a `commit` over a tracked list of plain file names of the
working directory succeed with fingerprint `newHash`, so with id
`newHash[:6]`. In every later state with the same tracked list in which the
commit directory of that id is as the commit left it, a `checkout` of the id
that reports success leaves in each tracked file the bytes it had when the
commit was made, and re-hashing the tracked files gives `newHash` again. -/
theorem checkout_round_trip (fs fs2 : FS) (message : Bytes) (rest rest2 : List Bytes)
    (files : List Bytes) (newHash : Bytes)
    (htracked : getTrackedFiles fs = some files)
    (hplain : ∀ p ∈ files, validName p = true)
    (hhash : calculateFilesHash fs = some newHash)
    (hcommit : (handleCommit (message :: rest) fs).2 = str "Changes are committed.\n")
    (htracked2 : getTrackedFiles fs2 = some files)
    (hsnap : ∀ r, fs2.get ([str "vcs", str "commits", newHash.take 6] ++ r)
      = (handleCommit (message :: rest) fs).1.get ([str "vcs", str "commits", newHash.take 6] ++ r))
    (hcheckout : (handleCheckout (newHash.take 6 :: rest2) fs2).2
      = str "Switched to commit " ++ newHash.take 6 ++ str ".\n") :
    (∀ p ∈ files, ∃ d, ReadFile fs p = some d ∧
      ReadFile (handleCheckout (newHash.take 6 :: rest2) fs2).1 p = some d) ∧
    calculateFilesHash (handleCheckout (newHash.take 6 :: rest2) fs2).1 = some newHash := by
  have hid := newHash_take_valid fs newHash hhash
  -- what the commit stored
  have hstored : ∀ p ∈ files, ∃ d, ReadFile fs p = some d ∧
      fs2.get [str "vcs", str "commits", newHash.take 6, p] = some (Node.file d) := by
    rcases handleCommit_shape message rest fs with ⟨_, h1⟩ | ⟨_, _, _, _, h1, _⟩ |
        ⟨author, newHash2, fs1, files2, fs3, _, _, hh, _, hm, ht, hcs, hap, h1⟩
    · exact absurd hcommit h1
    · exact absurd hcommit h1
    · rw [hhash] at hh
      simp only [Option.some.injEq] at hh
      subst hh
      have hf : files2 = files := by
        have := getTrackedFiles_congr fs fs1 (MkdirAll_ReadFile fs fs1 _ indexFile hm)
        rw [ht, htracked] at this
        simpa using this
      subst hf
      intro p hp
      obtain ⟨d, hd, hg⟩ := commitFiles_of_success _ hid files2 fs1 hplain hcs p hp
      refine ⟨d, ?_, ?_⟩
      · rw [← MkdirAll_ReadFile fs fs1 _ p hm]; exact hd
      · have := hsnap [p]
        rw [h1] at this
        simp only [List.cons_append, List.nil_append] at this
        rw [this, appendToFile_get_ne _ _ _ _ hap _
          (by rw [resolve_logFile]; exact fun c => absurd (congrArg List.length c) (by simp))]
        exact hg
  -- what the checkout restored
  obtain ⟨entries, hrd, hres, hfs⟩ := handleCheckout_success _ rest2 fs2 hcheckout
  have hev : ∀ e ∈ entries, validName e.1 = true := fun e he => (ReadDir_mem fs2 _ entries hrd e he).1
  obtain ⟨hsrc, hdst⟩ := restoreFiles_success_inv _ hid entries fs2 hev hres
  obtain ⟨_, hget⟩ := restoreFiles_ok _ hid entries fs2 hev hsrc hdst
  have hfinal : ∀ p ∈ files, ∃ d, ReadFile fs p = some d ∧
      ReadFile (handleCheckout (newHash.take 6 :: rest2) fs2).1 p = some d := by
    intro p hp
    obtain ⟨d, hd, hg⟩ := hstored p hp
    refine ⟨d, hd, ?_⟩
    have hpv := hplain p hp
    have hmem : (p, decide (fs2.get (resolve (Join commitsDir (newHash.take 6)) ++ [p]) = some Node.dir))
        ∈ entries := by
      rw [(ReadDir_eq_some fs2 _ entries hrd).2, List.mem_map]
      refine ⟨p, ?_, rfl⟩
      rw [mem_childNames, resolve_Join_commitsDir _ hid]
      exact ⟨hpv, _, hg⟩
    have := hget _ hmem
    simp only [] at this
    rw [ReadFile_eq_some, resolve_valid p hpv, hfs, this, hg]
    exact ⟨((validName_iff p).1 hpv).1, rfl⟩
  refine ⟨hfinal, ?_⟩
  have hidx : getTrackedFiles (handleCheckout (newHash.take 6 :: rest2) fs2).1 = some files := by
    rw [← htracked2]
    apply getTrackedFiles_congr
    apply ReadFile_congr
    rw [resolve_indexFile]
    exact handleCheckout_get_of_length _ fs2 _ (by decide)
  have hall : readAll (handleCheckout (newHash.take 6 :: rest2) fs2).1 files = readAll fs files := by
    apply readAll_congr
    intro p hp
    obtain ⟨d, hd, hg⟩ := hfinal p hp
    rw [hd, hg]
  have h0 := hhash
  unfold calculateFilesHash at h0 ⊢
  rw [htracked] at h0
  rw [hidx]
  simp only [] at h0 ⊢
  rw [hall]
  exact h0

/-- C4 as stated fails: with the tracked file `sub/a` holding `hello`, `commit`
succeeds with id `2cf24d` and stores the bytes under the base name `a`. After
an edit of `sub/a` to `HELLO` (same tracked list), `checkout 2cf24d` succeeds
but writes the file `a` of the working directory: `sub/a` still holds `HELLO`,
and re-hashing the tracked files gives a fingerprint that starts with
`3733cd`, not with the id. -/
theorem checkout_round_trip_counterexample :
    ReadFile subFS (str "sub/a") = some (str "hello") ∧
    (main [str "commit", str "init"] subFS).2 = str "Changes are committed.\n" ∧
    (main [str "checkout", str "2cf24d"]
      (FS.set (main [str "commit", str "init"] subFS).1 [str "sub", str "a"]
        (Node.file (str "HELLO")))).2 = str "Switched to commit 2cf24d.\n" ∧
    ReadFile (main [str "checkout", str "2cf24d"]
      (FS.set (main [str "commit", str "init"] subFS).1 [str "sub", str "a"]
        (Node.file (str "HELLO")))).1 (str "sub/a") = some (str "HELLO") ∧
    calculateFilesHash (main [str "checkout", str "2cf24d"]
      (FS.set (main [str "commit", str "init"] subFS).1 [str "sub", str "a"]
        (Node.file (str "HELLO")))).1
      = some (str "3733cd977ff8eb18b987357e22ced99f46097f31ecb239e878ae63760e83e4d5") := by
  decide!

/-- C4, amended, at the example state: after `commit init` (id `936a18`) and an
edit of `a`, `checkout 936a18` brings back `hello`, and the fingerprint of the
tracked files is that of the commit again. -/
theorem checkout_round_trip_witness :
    ReadFile (handleCheckout [str "936a18"] editedFS).1 (str "a") = some (str "hello") ∧
    calculateFilesHash (handleCheckout [str "936a18"] editedFS).1
      = some (str "936a185caaa266bb9cbe981e9e05cb78cd732b0b3280eb944412bb6f8f8f07af") := by
  have h := checkout_round_trip exampleFS editedFS (str "init") [] [] [str "a", str "b"]
    (str "936a185caaa266bb9cbe981e9e05cb78cd732b0b3280eb944412bb6f8f8f07af")
    (by decide!) (by decide) (by decide!) (by decide!) (by decide!)
    (fun r => get_set_ne _ _ _ _ (by simp)) (by decide!)
  obtain ⟨d, hd, hr⟩ := h.1 (str "a") (by decide)
  have h0 : ReadFile exampleFS (str "a") = some (str "hello") := by decide!
  rw [h0] at hd
  simp only [Option.some.injEq] at hd
  subst hd
  exact ⟨hr, h.2⟩

/-! ## The fingerprint and the commit id -/

/-- The loop of `calculateFilesHash` over readable files yields the
concatenation of their contents. -/
theorem readAll_of_forall₂ (fs : FS) (files datas : List Bytes)
    (h : List.Forall₂ (fun p d => ReadFile fs p = some d) files datas) :
    readAll fs files = some datas.flatten := by
  induction h with
  | nil => rfl
  | cons hd _ ih =>
    unfold readAll
    rw [hd, ih]
    simp

/-- C2: when the tracked files are all readable, `calculateFilesHash` returns
the lowercase hex encoding of the SHA-256 of the concatenation of their bytes
in tracked order, 64 characters long; a successful `commit` names its commit
directory by the first 6 characters of that string and appends a history
block that carries the same 6 characters as commit id. -/
theorem commit_identity (fs : FS) (files datas : List Bytes)
    (htracked : getTrackedFiles fs = some files)
    (hread : List.Forall₂ (fun p d => ReadFile fs p = some d) files datas) :
    calculateFilesHash fs = some (hexEncode (sha256 datas.flatten)) ∧
    (hexEncode (sha256 datas.flatten)).length = 64 ∧
    (∀ c ∈ hexEncode (sha256 datas.flatten), c ∈ str "0123456789abcdef") ∧
    ∀ message rest, (handleCommit (message :: rest) fs).2 = str "Changes are committed.\n" →
      resolve (Join commitsDir ((hexEncode (sha256 datas.flatten)).take 6))
        = [str "vcs", str "commits", (hexEncode (sha256 datas.flatten)).take 6] ∧
      (handleCommit (message :: rest) fs).1.get
        [str "vcs", str "commits", (hexEncode (sha256 datas.flatten)).take 6] = some Node.dir ∧
      ∃ author, ReadFile fs configFile = some author ∧
        ReadFile (handleCommit (message :: rest) fs).1 logFile =
          some ((ReadFile fs logFile).getD [] ++ (str "commit "
            ++ (hexEncode (sha256 datas.flatten)).take 6 ++ str "\nAuthor: " ++ author ++ str "\n"
            ++ message ++ str "\n\n")) := by
  have hh : calculateFilesHash fs = some (hexEncode (sha256 datas.flatten)) := by
    unfold calculateFilesHash
    rw [htracked]
    simp only []
    rw [readAll_of_forall₂ fs files datas hread]
    rfl
  refine ⟨hh, fingerprint_length _, hexEncode_mem _, ?_⟩
  intro message rest hs
  have hid := commitID_valid datas.flatten
  refine ⟨resolve_Join_commitsDir _ hid, ?_, ?_⟩
  · rcases handleCommit_shape message rest fs with ⟨_, h1⟩ | ⟨_, _, _, _, h1, _⟩ |
        ⟨author, newHash, fs1, files2, fs3, _, _, hh2, _, hm, _, _, hap, h1⟩
    · exact absurd hs h1
    · exact absurd hs h1
    · rw [hh] at hh2
      simp only [Option.some.injEq] at hh2
      subst hh2
      rw [h1]
      apply appendToFile_dir _ _ _ _ hap
      apply commitFiles_dir
      have := MkdirAll_dir fs fs1 _ hm
      rwa [resolve_Join_commitsDir _ hid] at this
  · obtain ⟨author, newHash, hcfg, _, hh2, hr⟩ := handleCommit_log_of_success message rest fs hs
    rw [hh] at hh2
    simp only [Option.some.injEq] at hh2
    subst hh2
    exact ⟨author, hcfg, hr⟩

/-- C2, at the example state (`a` holds `hello`, `b` holds `world`, tracked in
that order): the fingerprint is the SHA-256 of `helloworld` in hex, and the
commit directory is named by its first 6 characters, `936a18`. -/
theorem commit_identity_witness :
    calculateFilesHash exampleFS
      = some (str "936a185caaa266bb9cbe981e9e05cb78cd732b0b3280eb944412bb6f8f8f07af") ∧
    (handleCommit [str "init"] exampleFS).1.get [str "vcs", str "commits", str "936a18"]
      = some Node.dir := by
  have h := commit_identity exampleFS [str "a", str "b"] [str "hello", str "world"] (by decide!)
    (List.Forall₂.cons (by decide!) (List.Forall₂.cons (by decide!) List.Forall₂.nil))
  have he : hexEncode (sha256 [str "hello", str "world"].flatten)
      = str "936a185caaa266bb9cbe981e9e05cb78cd732b0b3280eb944412bb6f8f8f07af" := by decide!
  rw [he] at h
  exact ⟨h.1, (h.2.2.2 (str "init") [] (by decide!)).2.1⟩

/-- C10 as stated fails: `a` holds `a` and `b` holds `aa`, so the contents are
not all identical and swapping the tracked order changes the sequence of
paths, but both orders hash the bytes `aaa` and give the same fingerprint. -/
theorem order_sensitivity_counterexample :
    getTrackedFiles overlapFS = some [str "a", str "b"] ∧
    getTrackedFiles overlapSwappedFS = some [str "b", str "a"] ∧
    ReadFile overlapFS (str "a") = some (str "a") ∧
    ReadFile overlapFS (str "b") = some (str "aa") ∧
    ReadFile overlapSwappedFS (str "a") = some (str "a") ∧
    ReadFile overlapSwappedFS (str "b") = some (str "aa") ∧
    calculateFilesHash overlapFS
      = some (str "9834876dcfb05cb167a5c24953eba58c4ac89b1adf57f28f2f9d09af107ee8f0") ∧
    calculateFilesHash overlapSwappedFS = calculateFilesHash overlapFS := by
  decide!

theorem hexDigit_inj : ∀ a < 16, ∀ b < 16, hexDigit a = hexDigit b → a = b := by decide

/-- The hex encoding loses nothing: different byte strings have different
encodings. -/
theorem hexEncode_injective (x y : Bytes) (h : hexEncode x = hexEncode y) : x = y := by
  induction x generalizing y with
  | nil =>
    cases y with
    | nil => rfl
    | cons b bs => exact absurd (congrArg List.length h) (by simp [hexEncode_length])
  | cons a as ih =>
    cases y with
    | nil => exact absurd (congrArg List.length h) (by simp [hexEncode_length])
    | cons b bs =>
      have ha : hexEncode (a :: as)
          = hexDigit (a.toNat / 16) :: hexDigit (a.toNat % 16) :: hexEncode as := rfl
      have hb : hexEncode (b :: bs)
          = hexDigit (b.toNat / 16) :: hexDigit (b.toNat % 16) :: hexEncode bs := rfl
      rw [ha, hb] at h
      simp only [List.cons.injEq] at h
      obtain ⟨h1, h2, h3⟩ := h
      have hla := UInt8.toNat_lt a
      have hlb := UInt8.toNat_lt b
      have e1 := hexDigit_inj _ (by omega) _ (by omega) h1
      have e2 := hexDigit_inj _ (Nat.mod_lt _ (by decide)) _ (Nat.mod_lt _ (by decide)) h2
      have hab : a = b := UInt8.ext (by omega)
      rw [hab, ih bs h3]

/-- C10, amended: for two tracked lists of readable files, in particular a
list and a permutation of it, the fingerprints differ exactly when the
SHA-256 digests of the two concatenations differ. So every change of order
that changes the digest of the concatenated bytes changes the fingerprint,
and it takes different concatenated bytes to do so. -/
theorem order_sensitivity (fs fs2 : FS) (files files2 datas datas2 : List Bytes)
    (htracked : getTrackedFiles fs = some files)
    (hread : List.Forall₂ (fun p d => ReadFile fs p = some d) files datas)
    (htracked2 : getTrackedFiles fs2 = some files2)
    (hread2 : List.Forall₂ (fun p d => ReadFile fs2 p = some d) files2 datas2) :
    (sha256 datas2.flatten ≠ sha256 datas.flatten →
      calculateFilesHash fs2 ≠ calculateFilesHash fs) ∧
    (calculateFilesHash fs2 ≠ calculateFilesHash fs →
      sha256 datas2.flatten ≠ sha256 datas.flatten ∧ datas2.flatten ≠ datas.flatten) := by
  have h1 : calculateFilesHash fs = some (hexEncode (sha256 datas.flatten)) := by
    unfold calculateFilesHash
    rw [htracked]
    simp only []
    rw [readAll_of_forall₂ fs files datas hread]
    rfl
  have h2 : calculateFilesHash fs2 = some (hexEncode (sha256 datas2.flatten)) := by
    unfold calculateFilesHash
    rw [htracked2]
    simp only []
    rw [readAll_of_forall₂ fs2 files2 datas2 hread2]
    rfl
  rw [h1, h2]
  constructor
  · intro hne he
    simp only [Option.some.injEq] at he
    exact hne (hexEncode_injective _ _ he)
  · intro hne
    constructor
    · intro he
      exact hne (by rw [he])
    · intro he
      exact hne (by rw [he])

/-- C10, amended, at `a` = `hello`, `b` = `world`: the orders `a, b` and `b, a`
give the digests of `helloworld` and of `worldhello`, which differ, and so do
the fingerprints. -/
theorem order_sensitivity_witness :
    calculateFilesHash swappedFS ≠ calculateFilesHash exampleFS :=
  (order_sensitivity exampleFS swappedFS [str "a", str "b"] [str "b", str "a"]
    [str "hello", str "world"] [str "world", str "hello"] (by decide!)
    (List.Forall₂.cons (by decide!) (List.Forall₂.cons (by decide!) List.Forall₂.nil)) (by decide!)
    (List.Forall₂.cons (by decide!) (List.Forall₂.cons (by decide!) List.Forall₂.nil))).1 (by decide!)

/-! ## The order of the history -/

/-- C8 as stated fails: one successful commit whose message is `a`, a blank
line, `b` appends one block, but `log` cuts the history at every blank line
and prints two pieces, `b` first. -/
theorem log_order_counterexample :
    (main [str "commit", str "a\n\nb"] exampleFS).2 = str "Changes are committed.\n" ∧
    ReadFile (main [str "commit", str "a\n\nb"] exampleFS).1 logFile
      = some (str "commit 936a18\nAuthor: bob\na\n\nb" ++ str "\n\n") ∧
    (main [str "log"] (main [str "commit", str "a\n\nb"] exampleFS).1).2
      = str "b" ++ str "\n\n" ++ str "commit 936a18\nAuthor: bob\na" := by
  decide!

/-- C8, amended: after a run of N ≥ 1 successful commits that started from an
empty history file, if none of the appended blocks (`commit <id>`, `Author:
<author>`, `<message>`) contains a blank line or ends in a line feed, and the
latest block does not end in white space, then `log` cuts the history into
exactly these N blocks and prints them in the reverse of creation order,
separated by blank lines. -/
theorem log_reverse_order (fs : FS) (blocks : List Bytes) (hrun : CommitRun fs blocks)
    (hne : blocks ≠ [])
    (hgood : ∀ b ∈ blocks, ¬ str "\n\n" <:+: b ∧ ¬ str "\n" <:+ b)
    (hlast : ∀ l, blocks.getLast? = some l → ∀ r ∈ spaceRunes, ¬ r <:+ l) :
    (∃ content, ReadFile fs logFile = some content ∧
      Split (TrimSpace content) (str "\n\n") = blocks) ∧
    (handleLog fs).2 = (str "\n\n").intercalate blocks.reverse := by
  obtain ⟨hlog, hform⟩ := CommitRun_log fs blocks hrun
  cases blocks with
  | nil => exact absurd rfl hne
  | cons b bs =>
    rw [str_nlnl, str_nl] at hgood
    rw [str_nlnl]
    rw [flatten_blocks] at hlog
    have hgood2 : ∀ x ∈ b :: bs, ¬ [10, 10] <:+: x ∧ x.getLast? ≠ some 10 := by
      intro x hx
      refine ⟨(hgood x hx).1, ?_⟩
      intro hl
      refine (hgood x hx).2 ?_
      obtain ⟨t, ht⟩ := List.getLast?_eq_some_iff.1 hl
      exact ⟨t, ht.symm⟩
    obtain ⟨t, ht, _⟩ := hform b (List.mem_cons_self _ _)
    obtain ⟨t2, ht2⟩ : ∃ t2, List.intercalate [10, 10] (b :: bs) = 99 :: t2 := by
      cases bs with
      | nil => exact ⟨t, by rw [intercalate_singleton, ht]⟩
      | cons d ds => exact ⟨_, by rw [intercalate_cons_cons, ht]; rfl⟩
    have hsuf : ∀ r ∈ spaceRunes, ¬ r <:+ (99 :: t2) := by
      intro r hr hs
      obtain ⟨l, hl, hls⟩ := intercalate_suffix [10, 10] b bs
      rw [ht2] at hls
      have hlm : l ∈ b :: bs := List.mem_of_mem_getLast? hl
      obtain ⟨tl, htl, hlen⟩ := hform l hlm
      have : r <:+ l := by
        apply List.suffix_of_suffix_length_le hs hls
        rw [htl]
        exact le_trans (spaceRunes_short r hr) hlen
      exact hlast l hl r hr this
    have htrim : TrimSpace (List.intercalate [10, 10] (b :: bs) ++ [10, 10])
        = List.intercalate [10, 10] (b :: bs) := by
      rw [ht2]
      exact TrimSpace_blank t2 hsuf
    have hsplit := split_blocks b bs hgood2
    refine ⟨⟨_, hlog, by rw [htrim, hsplit]⟩, ?_⟩
    have hst : statNotExist fs logFile = false := by
      have hg := ((ReadFile_eq_some fs logFile _).1 hlog).2
      unfold statNotExist
      simp [hg, hlog, ((ReadFile_eq_some fs logFile _).1 hlog).1]
    have hlen : ¬ (List.intercalate [10, 10] (b :: bs) ++ [10, 10]).length = 0 := by simp
    unfold handleLog
    rw [hst, hlog]
    simp only [Bool.false_eq_true, if_false, str_nlnl]
    rw [if_neg hlen, htrim, hsplit]

/-- C8, amended, at the example state: after `commit "fix "` (the message ends
in a space), an edit of `a` and `commit next`, the command `log` prints the
block of the second commit first and the block of the first commit with its
final space. -/
theorem log_reverse_order_witness :
    (handleLog (handleCommit [str "next"] spacedFS).1).2
      = str "commit c67fea\nAuthor: bob\nnext" ++ str "\n\n" ++ str "commit 936a18\nAuthor: bob\nfix " := by
  have hrun : CommitRun (handleCommit [str "next"] spacedFS).1
      ([] ++ [logBlock ((str "936a185caaa266bb9cbe981e9e05cb78cd732b0b3280eb944412bb6f8f8f07af").take 6)
          (str "bob") (str "fix ")]
        ++ [logBlock ((str "c67feab77d8dbd3fc937db0cc36499cffd56a7095d643c7e7599b03c92b6a66d").take 6)
          (str "bob") (str "next")]) :=
    CommitRun.commit spacedFS _ (str "next") [] (str "bob")
      (str "c67feab77d8dbd3fc937db0cc36499cffd56a7095d643c7e7599b03c92b6a66d")
      (CommitRun.other (handleCommit [str "fix "] exampleFS).1 spacedFS _
        (CommitRun.commit exampleFS [] (str "fix ") [] (str "bob")
          (str "936a185caaa266bb9cbe981e9e05cb78cd732b0b3280eb944412bb6f8f8f07af")
          (CommitRun.start exampleFS (by decide!)) (by decide!) (by decide!) (by decide!))
        (by decide!))
      (by decide!) (by decide!) (by decide!)
  have h := (log_reverse_order _ _ hrun (by decide) (by decide!) (by decide!)).2
  rw [h]
  decide!

/-! ## Stored snapshots -/

/-- C1 at a failing input: with `b` (holding `world`) tracked before `a`
(holding `hello`), the first `commit` succeeds with the fingerprint of
`worldhello`. Run again with nothing changed, `getLastCommitHash` re-hashes
the stored files in name order (`helloworld`), finds another fingerprint, and
the second `commit` reports success and appends a second history entry. -/
theorem commit_twice_failing_input :
    (main [str "commit", str "init"] swappedFS).2 = str "Changes are committed.\n" ∧
    calculateFilesHash (main [str "commit", str "init"] swappedFS).1
      = some (str "8376118fc0230e6054e782fb31ae52ebcfd551342d8d026c209997e0127b6f74") ∧
    getLastCommitHash (main [str "commit", str "init"] swappedFS).1
      = some (str "936a185caaa266bb9cbe981e9e05cb78cd732b0b3280eb944412bb6f8f8f07af") ∧
    (main [str "commit", str "init"] (main [str "commit", str "init"] swappedFS).1).2
      = str "Changes are committed.\n" ∧
    ReadFile (main [str "commit", str "init"] (main [str "commit", str "init"] swappedFS).1).1 logFile
      = some (str "commit 837611\nAuthor: bob\ninit\n\n" ++ str "commit 837611\nAuthor: bob\ninit\n\n") := by
  decide!

/-- C3 at a failing input: `a` is committed holding `world` (id `486ea4`), then
holding `hello` (id `2cf24d`, the most recent commit). With `a` edited back to
`world` the fingerprint of the tracked files differs from that of the most
recent commit, but `getLastCommitHash` returns the fingerprint of the
directory that comes last in name order, `486ea4`, and `commit` reports
"Nothing to commit.". -/
theorem changed_content_failing_input :
    (main [str "commit", str "one"] worldFS).2 = str "Changes are committed.\n" ∧
    calculateFilesHash (FS.set (main [str "commit", str "one"] worldFS).1 [str "a"]
      (Node.file (str "hello")))
      = some (str "2cf24dba5fb0a30e26e83b2ac5b9e29e1b161e5c1fa7425e73043362938b9824") ∧
    (main [str "commit", str "two"] (FS.set (main [str "commit", str "one"] worldFS).1 [str "a"]
      (Node.file (str "hello")))).2 = str "Changes are committed.\n" ∧
    calculateFilesHash (FS.set (main [str "commit", str "two"]
      (FS.set (main [str "commit", str "one"] worldFS).1 [str "a"] (Node.file (str "hello")))).1
      [str "a"] (Node.file (str "world")))
      = some (str "486ea46224d1bb4fb680f34f7c9ad96a8f24ec88be73ea8e5a6c65260e9cb8a7") ∧
    (main [str "commit", str "three"] (FS.set (main [str "commit", str "two"]
      (FS.set (main [str "commit", str "one"] worldFS).1 [str "a"] (Node.file (str "hello")))).1
      [str "a"] (Node.file (str "world")))).2 = str "Nothing to commit.\n" := by
  decide!

end VCS
